import Mathlib

/-!
# POSE-AFF: formal model of the retry helpers and the bounded-concurrency batch runner

This file gives a shallow embedding, in Lean 4, of the one piece of recurring
non-trivial logic in the POSE-AFF repository:

* the retry helpers `withRetry` and `withGenericRetry`
  (src/unnamed/part_000, lines 188-247), together with the transient-failure
  classification that `withRetry` performs on a caught error;
* the bounded-concurrency batch runner (`PoseTreadmill.generatePoses`,
  src/components/PoseTreadmill.ts lines 176-274; the identically structured
  `PoseGanci.generatePoses` in src/unnamed/part_001 lines 171-249 and
  `BatchEditor.generateEdits` in src/unnamed/part_002).

JavaScript values thrown as errors are modelled by the inductive type
`JSValue`; a thrown exception is a `Thrown`.  Member access `v.k` on a
nullish value throws a `TypeError` in JavaScript, which the embedding models
faithfully (`jsMember`).  `JSON.parse` belongs to the JS runtime, not to the
repository, so it is an abstract parameter `parse : String → Except JSValue
JSValue` (`.error` = the parse threw).

The cooperatively-concurrent scheduler loop is modelled by an explicit event
schedule: within one window every job runs synchronously up to its single
`await` of the network call, then the settle events of the window's jobs and
the (user-triggered) clearing of the `isRunning` flag interleave in an
arbitrary order.  This matches the single-threaded JS execution model: the
flag can only change while all in-flight jobs of the current window are
suspended at their awaits.
-/

namespace PoseAff

/-- A JavaScript value, as far as the error-classification code inspects it.
JSON structures produced by `JSON.parse` are also `JSValue`s. -/
inductive JSValue where
  | null
  | undefined
  | boolean (b : Bool)
  | number (n : Int)
  | string (s : String)
  | array (elems : List JSValue)
  | object (fields : List (String × JSValue))
deriving Repr

/-- An exception as propagated by the JS runtime: either an arbitrary thrown
value, or a `TypeError` raised by member access `x.key` on `null`/`undefined`
(tagged with the accessed key). -/
inductive Thrown where
  | val (v : JSValue)
  | typeErr (key : String)
deriving Repr

/-- Plain (non-optional) member access on a value already known to be
non-nullish: on an object it looks the key up (missing key gives
`undefined`); on any other non-nullish value there is no own property of
that name, so the access yields `undefined`. -/
def jsMemberVal (v : JSValue) (key : String) : JSValue :=
  match v with
  | .object fields => (List.lookup key fields).getD .undefined
  | _ => .undefined

/-- JavaScript member access `v.key`: throws a `TypeError` when `v` is
`null` or `undefined`, otherwise yields `jsMemberVal`. -/
def jsMember (v : JSValue) (key : String) : Except Thrown JSValue :=
  match v with
  | .null => .error (.typeErr key)
  | .undefined => .error (.typeErr key)
  | _ => .ok (jsMemberVal v key)

/-- One step of an optional chain `v?.key`: nullish `v` short-circuits to
`undefined`, otherwise an ordinary (non-throwing) member access. -/
def jsOptGet (v : JSValue) (key : String) : JSValue :=
  match v with
  | .null => .undefined
  | .undefined => .undefined
  | _ => jsMemberVal v key

/-- JavaScript strict equality `v === n` against a number literal. -/
def strictEqNum (v : JSValue) (n : Int) : Bool :=
  match v with
  | .number m => m == n
  | _ => false

/-- `errBody?.error?.code === 429` (src/unnamed/part_000, line 203). -/
def jsCodeIs429 (errBody : JSValue) : Bool :=
  strictEqNum (jsOptGet (jsOptGet errBody "error") "code") 429

/-- The transient-failure classification performed inside `withRetry`'s
`catch` block (src/unnamed/part_000, lines 198-209):

```ts
let is429 = false;
if (typeof e.message === 'string') {
  try {
    const errBody = JSON.parse(e.message);
    if (errBody?.error?.code === 429) { is429 = true; }
  } catch (parseErr) { /* not JSON: not retryable */ }
}
```

`parse` abstracts `JSON.parse` (`.error` = it threw, and the inner `catch`
swallows that).  Note that evaluating `e.message` itself throws a
`TypeError` when `e` is nullish, and nothing catches that. -/
def is429Check (parse : String → Except JSValue JSValue)
    (e : JSValue) : Except Thrown Bool :=
  match jsMember e "message" with
  | .error t => .error t
  | .ok m =>
    match m with
    | .string s =>
      match parse s with
      | .ok errBody => .ok (jsCodeIs429 errBody)
      | .error _ => .ok false
    | _ => .ok false

/-- How a call to a retry helper ends: a value returned from a successful
attempt, an exception propagated from inside the attempt loop, or the
trailing `throw lastError` after the loop (carrying the current value of
`lastError`, initially `undefined` = `none`). -/
inductive RetryOutcome (α : Type) where
  | ok (v : α)
  | thrown (t : Thrown)
  | fallthrough (lastError : Option JSValue)
deriving Repr

/-- The observable trace of one call to a retry helper: its outcome, the
number of invocations of `fn`, and the `(attempt, error)` arguments of the
successive `onRetry` calls, in call order. -/
structure RetryTrace (α : Type) where
  outcome : RetryOutcome α
  calls : Nat
  onRetry : List (Nat × JSValue)
deriving Repr

/-- The attempt loop shared by `withRetry` and `withGenericRetry`
(src/unnamed/part_000, lines 192-222 and 231-247):

```ts
let lastError: any;
for (let attempt = 1; attempt <= retries + 1; attempt++) {
  try {
    return await fn();
  } catch (e: any) {
    lastError = e;
    /* withRetry only: classify e (may itself throw on nullish e) */
    if (is429 && attempt <= retries) { onRetry(attempt, e); await delay(delayMs); }
    else { throw e; }
  }
}
throw lastError;
```

`fn k` is the result of the `k`-th invocation of the wrapped operation
(`.error e` = it rejected with the value `e`).  `p` is the classification of
a caught error (`.error` = classifying threw; for `withGenericRetry` the
classification is constantly `.ok true`, i.e. the `if` guard degenerates to
`attempt <= retries` exactly as in the source).  `fuel` counts the loop
iterations still permitted by the loop condition `attempt ≤ retries + 1`;
it starts at `retries + 1` and reaching `0` is exactly the loop condition
turning false, upon which the trailing `throw lastError` runs. -/
def retryLoopGo (p : JSValue → Except Thrown Bool) (fn : Nat → Except JSValue α)
    (retries : Nat) (lastError : Option JSValue) (attempt : Nat) :
    Nat → RetryTrace α
  | 0 => ⟨.fallthrough lastError, 0, []⟩
  | fuel + 1 =>
    match fn attempt with
    | .ok v => ⟨.ok v, 1, []⟩
    | .error e =>
      match p e with
      | .error t => ⟨.thrown t, 1, []⟩
      | .ok retryable =>
        if retryable = true ∧ attempt ≤ retries then
          let t := retryLoopGo p fn retries (some e) (attempt + 1) fuel
          ⟨t.outcome, t.calls + 1, (attempt, e) :: t.onRetry⟩
        else
          ⟨.thrown (.val e), 1, []⟩

/-- `withRetry` (src/unnamed/part_000, lines 188-222): retries only on
errors classified as structured 429 payloads. -/
def withRetry (fn : Nat → Except JSValue α)
    (parse : String → Except JSValue JSValue) (retries : Nat) : RetryTrace α :=
  retryLoopGo (is429Check parse) fn retries none 1 (retries + 1)

/-- `withGenericRetry` (src/unnamed/part_000, lines 227-247): retries on any
error; the classification step is absent, i.e. constantly `true` and
non-throwing. -/
def withGenericRetry (fn : Nat → Except JSValue α) (retries : Nat) :
    RetryTrace α :=
  retryLoopGo (fun _ => .ok true) fn retries none 1 (retries + 1)

/-- The run reaches attempt `k`: every earlier attempt was invoked, rejected,
and was classified retryable (for `withGenericRetry` the classification is
constantly `.ok true`, so the condition degenerates to "every earlier attempt
rejected"). -/
def Reaches (p : JSValue → Except Thrown Bool) (fn : Nat → Except JSValue α)
    (retries k : Nat) : Prop :=
  1 ≤ k ∧ k ≤ retries + 1 ∧
    ∀ j, 1 ≤ j → j < k → ∃ e, fn j = .error e ∧ p e = .ok true

/-! ## The bounded-concurrency batch runner

Model of `PoseTreadmill.generatePoses` (src/components/PoseTreadmill.ts,
lines 176-274).  `PoseGanci.generatePoses` (src/unnamed/part_001, lines
171-249) and `BatchEditor.generateEdits` (src/unnamed/part_002) have the
same structure: the same `runJob` shape (an early `isRunning` check, one
awaited network operation, a post-await `isRunning` check on the success
path only, a `catch` that records the failure unconditionally, and a
`finally` that bumps the progress counter only while running) and the same
windowed loop `for (i = 0; i < jobs.length; i += concurrency)` with an
`isRunning` check before each window.  `BatchEditor`'s two-dimensional
result array is the same runner over the flattened job list.

The per-job awaited operation is external (spec §6: an async function that
resolves with a payload or rejects with an error carrying a `message`
string), so it is abstracted by `OpResult`: the network call either rejects
with a message, or resolves with or without an image part in the response
(`resolve none` models a response with no `inlineData` part, upon which
`runJob` throws `"No image data in response."` into its own `catch`). -/

/-- How job `j`'s awaited network operation settles. -/
inductive OpResult where
  | reject (msg : String)
  | resolve (image : Option (String × String))
deriving DecidableEq, Repr

/-- `PoseResult.status` (src/components/PoseTreadmill.ts, line 13). -/
inductive JobStatus where
  | pending
  | done
  | error
deriving DecidableEq, Repr

/-- The `PoseResult` record (src/components/PoseTreadmill.ts, lines 11-16). -/
structure PoseResult where
  prompt : String
  status : JobStatus
  imageUrl : Option String
  errorMessage : Option String
deriving DecidableEq, Repr

/-- One batch job: the prompt it is built from, and how its network
operation settles. -/
structure Job where
  prompt : String
  op : OpResult
deriving DecidableEq, Repr

/-- The scheduler's mutable state: the shared `this.results` array, the
`completedJobs` progress counter, the cooperative `this.isRunning` flag,
and a ghost counter of how many windows the loop has entered. -/
structure RunState where
  results : List PoseResult
  completedJobs : Nat
  isRunning : Bool
  windowsExecuted : Nat
deriving DecidableEq, Repr

/-- An event at a scheduling point while the current window's jobs are
suspended at their awaits: either job `j`'s network operation settles (its
continuation then runs atomically to the job's end), or the user clears the
cancellation flag (`this.isRunning = false`, e.g. `BatchEditor`'s stop
button, src/unnamed/part_002 line 54). -/
inductive SchedEvent where
  | settle (j : Nat)
  | cancel
deriving DecidableEq, Repr

/-- Replace the `j`-th element (used for `this.results[jobIndex] = ...`). -/
def listModify (j : Nat) (f : α → α) : List α → List α
  | [] => []
  | x :: xs =>
    match j with
    | 0 => f x :: xs
    | jj + 1 => x :: listModify jj f xs

/-- `jobs.slice(i, i + concurrency)` chunking of the loop
`for (let i = 0; i < jobs.length; i += this.concurrency)`; the fuel is the
list length, which suffices for any chunk size `C ≥ 1` (with `C = 0` the
source loop would not terminate). -/
def chunksGo (C : Nat) : Nat → List α → List (List α)
  | 0, _ => []
  | _, [] => []
  | fuel + 1, xs => xs.take C :: chunksGo C fuel (xs.drop C)

/-- The consecutive windows of size `C` of a list. -/
def chunks (C : Nat) (xs : List α) : List (List α) :=
  chunksGo C xs.length xs

/-- The message of the error thrown when a resolved response has no image
part (src/components/PoseTreadmill.ts, line 234). -/
def noImageMsg : String := "No image data in response."

/-- `data:${mimeType};base64,${data}` (src/components/PoseTreadmill.ts,
line 235). -/
def mkImageUrl (mime data : String) : String :=
  "data:" ++ mime ++ ";base64," ++ data

/-- The `finally` block of `runJob` (src/components/PoseTreadmill.ts, lines
250-258): the progress counter is bumped only while the run flag is set
(the DOM updates it also performs are outside the model). -/
def finallyStep (s : RunState) : RunState :=
  if s.isRunning then { s with completedJobs := s.completedJobs + 1 } else s

/-- The continuation of `runJob jobIndex` after its awaited network call
settles (src/components/PoseTreadmill.ts, lines 226-258):

* the call rejected: the `catch` block records a `Failed` outcome carrying
  the error's message, unconditionally; then `finally`;
* the call resolved: first `if (!this.isRunning) return;` — when the flag
  was cleared while the call was in flight, nothing is recorded and the
  `finally` guard is false too; otherwise the image part is extracted
  (its absence throws into the same `catch`) and a `done` outcome with the
  data URL is recorded; then `finally`. -/
def settleJob (ops : List OpResult) (j : Nat) (s : RunState) : RunState :=
  match ops.getD j (.reject "") with
  | .reject msg =>
    finallyStep { s with
      results := listModify j
        (fun r => { r with status := .error, errorMessage := some msg })
        s.results }
  | .resolve img =>
    if s.isRunning then
      match img with
      | none =>
        finallyStep { s with
          results := listModify j
            (fun r => { r with status := .error, errorMessage := some noImageMsg })
            s.results }
      | some (mime, data) =>
        finallyStep { s with
          results := listModify j
            (fun r =>
              { r with status := .done, imageUrl := some (mkImageUrl mime data) })
            s.results }
    else s

/-- One scheduling event. -/
def stepEvent (ops : List OpResult) (s : RunState) (e : SchedEvent) : RunState :=
  match e with
  | .settle j => settleJob ops j s
  | .cancel => { s with isRunning := false }

/-- Execution of one window after its jobs have been started: the window's
settle events, interleaved with possible cancellations, in schedule order. -/
def processWindow (ops : List OpResult) (s : RunState)
    (σ : List SchedEvent) : RunState :=
  σ.foldl (stepEvent ops) s

/-- The scheduler loop (src/components/PoseTreadmill.ts, lines 262-266):

```ts
for (let i = 0; i < jobs.length; i += this.concurrency) {
  if (!this.isRunning) break;
  const chunk = jobs.slice(i, i + this.concurrency);
  await Promise.all(chunk.map(jobIndex => runJob(jobIndex)));
}
```

Per iteration: the flag is checked; when set, the window's jobs all start
synchronously (their own leading `if (!this.isRunning) return;` sees the
same flag value, since no suspension occurs in between), and the window
then plays out its event schedule.  `windowsExecuted` is a ghost counter of
entered windows. -/
def schedLoop (ops : List OpResult) :
    List (List Nat) → List (List SchedEvent) → RunState → RunState
  | [], _, s => s
  | _ :: _, [], s => s
  | _w :: ws, σ :: σs, s =>
    if s.isRunning then
      schedLoop ops ws σs
        (processWindow ops { s with windowsExecuted := s.windowsExecuted + 1 } σ)
    else s

/-- The fresh outcome array (src/components/PoseTreadmill.ts, line 190):
`this.results = POSES.map(prompt => ({ prompt, status: 'pending',
imageUrl: null }))`. -/
def initResults (jobs : List Job) : List PoseResult :=
  jobs.map (fun jb => ⟨jb.prompt, .pending, none, none⟩)

/-- The state at the start of the run: fresh outcomes, zero progress, flag
set (`this.isRunning = true`, line 182). -/
def initState (jobs : List Job) : RunState :=
  ⟨initResults jobs, 0, true, 0⟩

/-- A whole run of `generatePoses` over `jobs` with concurrency `C` under
the event schedule `scheds` (one event list per window): the windowed loop,
then `this.isRunning = false` after it (line 269). -/
def generatePosesRun (jobs : List Job) (C : Nat)
    (scheds : List (List SchedEvent)) : RunState :=
  let after := schedLoop (jobs.map Job.op) (chunks C (List.range jobs.length))
    scheds (initState jobs)
  { after with isRunning := false }

/-- The indices settled by a schedule, in order. -/
def settlesOf (σ : List SchedEvent) : List Nat :=
  σ.filterMap (fun e => match e with | .settle j => some j | .cancel => none)

/-- A schedule list is valid for a window list when it has one event list
per window which settles exactly that window's jobs, each once (in any
order — settle order within a window is unconstrained). -/
def ValidScheds (ws : List (List Nat)) (σs : List (List SchedEvent)) : Prop :=
  List.Forall₂ (fun w σ => (settlesOf σ).Perm w) ws σs

/-- No cancellation occurs anywhere in the schedule. -/
def NoCancel (σs : List (List SchedEvent)) : Prop :=
  ∀ σ ∈ σs, SchedEvent.cancel ∉ σ

/-- The outcome a settling job writes over `r`, as a function of its
operation's result and of the run flag at the settle (compact
characterization of `settleJob`'s effect on index `j`). -/
def settledResult (r : PoseResult) (op : OpResult) (running : Bool) :
    PoseResult :=
  match op with
  | .reject msg => { r with status := .error, errorMessage := some msg }
  | .resolve img =>
    if running then
      match img with
      | none => { r with status := .error, errorMessage := some noImageMsg }
      | some (mime, data) =>
        { r with status := .done, imageUrl := some (mkImageUrl mime data) }
    else r

/-- The outcome job `jb` produces when it settles while the run flag is
still set. -/
def jobOutcome (jb : Job) : PoseResult :=
  settledResult ⟨jb.prompt, .pending, none, none⟩ jb.op true

/-- The outcome recorded at index `j`. -/
def resultAt (s : RunState) (j : Nat) : PoseResult :=
  s.results.getD j ⟨"", .pending, none, none⟩



section RetryLemmas

variable {α : Type} (p : JSValue → Except Thrown Bool)
  (fn : Nat → Except JSValue α) (retries : Nat)

lemma retryLoopGo_step_ok {f attempt : Nat} {le : Option JSValue} {v : α}
    (hfn : fn attempt = .ok v) :
    retryLoopGo p fn retries le attempt (f + 1) = ⟨.ok v, 1, []⟩ := by
  simp [retryLoopGo, hfn]

lemma retryLoopGo_step_perr {f attempt : Nat} {le : Option JSValue}
    {e : JSValue} {t : Thrown}
    (hfn : fn attempt = .error e) (hp : p e = .error t) :
    retryLoopGo p fn retries le attempt (f + 1) = ⟨.thrown t, 1, []⟩ := by
  simp [retryLoopGo, hfn, hp]

lemma retryLoopGo_step_retry {f attempt : Nat} {le : Option JSValue} {e : JSValue}
    (hfn : fn attempt = .error e) (hp : p e = .ok true) (ha : attempt ≤ retries) :
    retryLoopGo p fn retries le attempt (f + 1) =
      ⟨(retryLoopGo p fn retries (some e) (attempt + 1) f).outcome,
       (retryLoopGo p fn retries (some e) (attempt + 1) f).calls + 1,
       (attempt, e) :: (retryLoopGo p fn retries (some e) (attempt + 1) f).onRetry⟩ := by
  simp [retryLoopGo, hfn, hp, ha]

lemma retryLoopGo_step_throw {f attempt : Nat} {le : Option JSValue} {e : JSValue}
    {b : Bool} (hfn : fn attempt = .error e) (hp : p e = .ok b)
    (hc : ¬(b = true ∧ attempt ≤ retries)) :
    retryLoopGo p fn retries le attempt (f + 1) = ⟨.thrown (.val e), 1, []⟩ := by
  simp only [retryLoopGo, hfn, hp, if_neg hc]

lemma retryLoopGo_calls_le :
    ∀ fuel le attempt, (retryLoopGo p fn retries le attempt fuel).calls ≤ fuel := by
  intro fuel
  induction fuel with
  | zero => intro le attempt; simp [retryLoopGo]
  | succ f ih =>
    intro le attempt
    cases hfn : fn attempt with
    | ok v => rw [retryLoopGo_step_ok p fn retries hfn]; simp
    | error e =>
      cases hp : p e with
      | error t => rw [retryLoopGo_step_perr p fn retries hfn hp]; simp
      | ok retryable =>
        by_cases h : retryable = true ∧ attempt ≤ retries
        · obtain ⟨hb, ha⟩ := h
          subst hb
          rw [retryLoopGo_step_retry p fn retries hfn hp ha]
          exact Nat.succ_le_succ (ih (some e) (attempt + 1))
        · rw [retryLoopGo_step_throw p fn retries hfn hp h]; simp

lemma retryLoopGo_calls_pos :
    ∀ fuel le attempt, 1 ≤ fuel →
      1 ≤ (retryLoopGo p fn retries le attempt fuel).calls := by
  intro fuel le attempt hf
  cases fuel with
  | zero => omega
  | succ f =>
    cases hfn : fn attempt with
    | ok v => rw [retryLoopGo_step_ok p fn retries hfn]
    | error e =>
      cases hp : p e with
      | error t => rw [retryLoopGo_step_perr p fn retries hfn hp]
      | ok retryable =>
        by_cases h : retryable = true ∧ attempt ≤ retries
        · obtain ⟨hb, ha⟩ := h
          subst hb
          rw [retryLoopGo_step_retry p fn retries hfn hp ha]
          simp
        · rw [retryLoopGo_step_throw p fn retries hfn hp h]

/-- A successful outcome is the value returned by the last invocation of
`fn`. -/
lemma retryLoopGo_ok_char :
    ∀ fuel le attempt v,
      (retryLoopGo p fn retries le attempt fuel).outcome = .ok v →
      fn (attempt + (retryLoopGo p fn retries le attempt fuel).calls - 1) = .ok v := by
  intro fuel
  induction fuel with
  | zero => intro le attempt v h; simp [retryLoopGo] at h
  | succ f ih =>
    intro le attempt v h
    cases hfn : fn attempt with
    | ok w =>
      rw [retryLoopGo_step_ok p fn retries hfn] at h ⊢
      simp at h
      subst h
      simpa using hfn
    | error e =>
      cases hp : p e with
      | error t => rw [retryLoopGo_step_perr p fn retries hfn hp] at h; simp at h
      | ok retryable =>
        by_cases hc : retryable = true ∧ attempt ≤ retries
        · obtain ⟨hb, ha⟩ := hc
          subst hb
          rw [retryLoopGo_step_retry p fn retries hfn hp ha] at h ⊢
          have := ih (some e) (attempt + 1) v h
          have harith :
              attempt + 1 + (retryLoopGo p fn retries (some e) (attempt + 1) f).calls - 1 =
              attempt + ((retryLoopGo p fn retries (some e) (attempt + 1) f).calls + 1) - 1 := by
            omega
          rw [harith] at this
          exact this
        · rw [retryLoopGo_step_throw p fn retries hfn hp hc] at h; simp at h

/-- A rethrown operation error is the error of the last invocation of
`fn` (provided the classifier `p` itself only ever throws `TypeError`s,
which holds for `is429Check` and trivially for the generic policy). -/
lemma retryLoopGo_thrown_char (hpnv : ∀ e v, p e ≠ .error (.val v)) :
    ∀ fuel le attempt e,
      (retryLoopGo p fn retries le attempt fuel).outcome = .thrown (.val e) →
      fn (attempt + (retryLoopGo p fn retries le attempt fuel).calls - 1) = .error e := by
  intro fuel
  induction fuel with
  | zero => intro le attempt e h; simp [retryLoopGo] at h
  | succ f ih =>
    intro le attempt e h
    cases hfn : fn attempt with
    | ok w => rw [retryLoopGo_step_ok p fn retries hfn] at h; simp at h
    | error e2 =>
      cases hp : p e2 with
      | error t =>
        rw [retryLoopGo_step_perr p fn retries hfn hp] at h
        simp at h
        subst h
        exact absurd hp (hpnv e2 e)
      | ok retryable =>
        by_cases hc : retryable = true ∧ attempt ≤ retries
        · obtain ⟨hb, ha⟩ := hc
          subst hb
          rw [retryLoopGo_step_retry p fn retries hfn hp ha] at h ⊢
          have := ih (some e2) (attempt + 1) e h
          have harith :
              attempt + 1 + (retryLoopGo p fn retries (some e2) (attempt + 1) f).calls - 1 =
              attempt + ((retryLoopGo p fn retries (some e2) (attempt + 1) f).calls + 1) - 1 := by
            omega
          rw [harith] at this
          exact this
        · rw [retryLoopGo_step_throw p fn retries hfn hp hc] at h ⊢
          simp at h
          simpa [← h] using hfn

/-- The `attempt` arguments of the successive `onRetry` calls are
`attempt, attempt+1, ...`: exactly `calls - 1` of them, consecutive. -/
lemma retryLoopGo_onRetry_map :
    ∀ fuel attempt le, attempt + fuel = retries + 2 →
      (retryLoopGo p fn retries le attempt fuel).onRetry.map Prod.fst =
        List.range' attempt ((retryLoopGo p fn retries le attempt fuel).calls - 1) := by
  intro fuel
  induction fuel with
  | zero => intro attempt le _; simp [retryLoopGo]
  | succ f ih =>
    intro attempt le hinv
    cases hfn : fn attempt with
    | ok v => rw [retryLoopGo_step_ok p fn retries hfn]; simp
    | error e =>
      cases hp : p e with
      | error t => rw [retryLoopGo_step_perr p fn retries hfn hp]; simp
      | ok retryable =>
        by_cases hc : retryable = true ∧ attempt ≤ retries
        · obtain ⟨hb, ha⟩ := hc
          subst hb
          rw [retryLoopGo_step_retry p fn retries hfn hp ha]
          simp only [List.map_cons]
          have hf : 1 ≤ f := by omega
          have hcalls := retryLoopGo_calls_pos p fn retries f (some e) (attempt + 1) hf
          have heq := ih (attempt + 1) (some e) (by omega)
          rw [heq]
          have harith :
              (retryLoopGo p fn retries (some e) (attempt + 1) f).calls + 1 - 1 =
              ((retryLoopGo p fn retries (some e) (attempt + 1) f).calls - 1) + 1 := by
            omega
          rw [harith, List.range'_succ]
        · rw [retryLoopGo_step_throw p fn retries hfn hp hc]; simp

/-- Under the loop invariant, the trailing `throw lastError` is never
reached. -/
lemma retryLoopGo_no_fallthrough :
    ∀ fuel attempt le, attempt + fuel = retries + 2 → 1 ≤ fuel →
      ∀ le2, (retryLoopGo p fn retries le attempt fuel).outcome ≠ .fallthrough le2 := by
  intro fuel
  induction fuel with
  | zero => intro attempt le hinv hf; omega
  | succ f ih =>
    intro attempt le hinv _ le2
    cases hfn : fn attempt with
    | ok v => rw [retryLoopGo_step_ok p fn retries hfn]; simp
    | error e =>
      cases hp : p e with
      | error t => rw [retryLoopGo_step_perr p fn retries hfn hp]; simp
      | ok retryable =>
        by_cases hc : retryable = true ∧ attempt ≤ retries
        · obtain ⟨hb, ha⟩ := hc
          subst hb
          rw [retryLoopGo_step_retry p fn retries hfn hp ha]
          have hf : 1 ≤ f := by omega
          exact ih (attempt + 1) (some e) (by omega) hf le2
        · rw [retryLoopGo_step_throw p fn retries hfn hp hc]; simp

/-- The body of the loop with positive fuel never inspects `lastError`, so
the trace does not depend on it. -/
lemma retryLoopGo_le_irrel :
    ∀ fuel le le' attempt, 1 ≤ fuel →
      retryLoopGo p fn retries le attempt fuel =
        retryLoopGo p fn retries le' attempt fuel := by
  intro fuel le le' attempt hf
  cases fuel with
  | zero => omega
  | succ f => rfl

/-- Reaching attempt `k` splits the trace: the first `k - 1` attempts each
contribute one call and one `onRetry`, and the run continues as a fresh loop
starting at attempt `k` with fuel `retries + 2 - k`. -/
lemma retryLoopGo_reach_shift {k : Nat}
    (h : Reaches p fn retries k) :
    (retryLoopGo p fn retries none 1 (retries + 1)).outcome =
      (retryLoopGo p fn retries none k (retries + 2 - k)).outcome ∧
    (retryLoopGo p fn retries none 1 (retries + 1)).calls =
      (k - 1) + (retryLoopGo p fn retries none k (retries + 2 - k)).calls ∧
    ∃ pre,
      (retryLoopGo p fn retries none 1 (retries + 1)).onRetry =
        pre ++ (retryLoopGo p fn retries none k (retries + 2 - k)).onRetry := by
  obtain ⟨hk1, hk2, hprev⟩ := h
  induction k with
  | zero => omega
  | succ k ihk =>
    rcases Nat.lt_or_ge 1 (k + 1) with hgt | hle
    · -- k ≥ 1: use the induction hypothesis at k and unfold one step at k.
      have hk : 1 ≤ k := by omega
      have ih := ihk hk (by omega)
        (fun j hj1 hj2 => hprev j hj1 (by omega))
      obtain ⟨hout, hcalls, pre, honr⟩ := ih
      obtain ⟨ek, hek, hpk⟩ := hprev k hk (by omega)
      have hstep0 := @retryLoopGo_step_retry _ p fn retries (retries + 1 - k) k
        none ek hek hpk (show k ≤ retries by omega)
      have hfuel : retries + 1 - k + 1 = retries + 2 - k := by omega
      have hfuel2 : retries + 1 - k = retries + 2 - (k + 1) := by omega
      rw [hfuel, hfuel2] at hstep0
      have hirrel :
          retryLoopGo p fn retries (some ek) (k + 1) (retries + 2 - (k + 1)) =
            retryLoopGo p fn retries none (k + 1) (retries + 2 - (k + 1)) :=
        retryLoopGo_le_irrel p fn retries _ _ _ _ (by omega)
      rw [hirrel] at hstep0
      refine ⟨?_, ?_, pre ++ [(k, ek)], ?_⟩
      · rw [hout, hstep0]
      · rw [hcalls, hstep0]
        simp only []
        omega
      · rw [honr, hstep0]
        simp
    · -- k + 1 = 1: the split is trivial.
      have hz : k = 0 := by omega
      subst hz
      simp only [Nat.zero_add]
      have hfe : retries + 2 - 1 = retries + 1 := by omega
      rw [hfe]
      exact ⟨rfl, by omega, [], by simp⟩

end RetryLemmas

/-! ### Characterization of the transient-failure classification -/

/-- `errBody?.error?.code === 429` holds exactly when the parsed body is an
object whose `error` member is an object whose `code` member is the number
`429`. -/
lemma jsCodeIs429_iff (body : JSValue) :
    jsCodeIs429 body = true ↔
      ∃ fs fs2, body = .object fs ∧
        List.lookup "error" fs = some (.object fs2) ∧
        List.lookup "code" fs2 = some (.number 429) := by
  cases body with
  | object fs =>
    cases he : List.lookup "error" fs with
    | none => simp [jsCodeIs429, jsOptGet, jsMemberVal, strictEqNum, he]
    | some v =>
      cases v with
      | object fs2 =>
        cases hc : List.lookup "code" fs2 with
        | none => simp [jsCodeIs429, jsOptGet, jsMemberVal, strictEqNum, he, hc]
        | some w =>
          cases w <;>
            simp [jsCodeIs429, jsOptGet, jsMemberVal, strictEqNum, he, hc]
      | null => simp [jsCodeIs429, jsOptGet, jsMemberVal, strictEqNum, he]
      | undefined => simp [jsCodeIs429, jsOptGet, jsMemberVal, strictEqNum, he]
      | boolean b => simp [jsCodeIs429, jsOptGet, jsMemberVal, strictEqNum, he]
      | number n => simp [jsCodeIs429, jsOptGet, jsMemberVal, strictEqNum, he]
      | string s => simp [jsCodeIs429, jsOptGet, jsMemberVal, strictEqNum, he]
      | array l => simp [jsCodeIs429, jsOptGet, jsMemberVal, strictEqNum, he]
  | null => simp [jsCodeIs429, jsOptGet, jsMemberVal, strictEqNum]
  | undefined => simp [jsCodeIs429, jsOptGet, jsMemberVal, strictEqNum]
  | boolean b => simp [jsCodeIs429, jsOptGet, jsMemberVal, strictEqNum]
  | number n => simp [jsCodeIs429, jsOptGet, jsMemberVal, strictEqNum]
  | string s => simp [jsCodeIs429, jsOptGet, jsMemberVal, strictEqNum]
  | array l => simp [jsCodeIs429, jsOptGet, jsMemberVal, strictEqNum]

/-- On an object error value the classification returns (does not throw),
with the value determined by the `message` member and the parse. -/
lemma is429Check_object (parse : String → Except JSValue JSValue)
    (fs : List (String × JSValue)) :
    is429Check parse (.object fs) =
      .ok (match (List.lookup "message" fs).getD .undefined with
        | .string s =>
          match parse s with
          | .ok errBody => jsCodeIs429 errBody
          | .error _ => false
        | _ => false) := by
  simp only [is429Check, jsMember, jsMemberVal]
  cases hm : (List.lookup "message" fs).getD .undefined with
  | string s => cases hps : parse s <;> simp [hm, hps]
  | null => simp [hm]
  | undefined => simp [hm]
  | boolean b => simp [hm]
  | number n => simp [hm]
  | array l => simp [hm]
  | object fs2 => simp [hm]

/-- The classification never throws a plain JS value: its only possible
exception is the `TypeError` from accessing `.message` on a nullish error. -/
lemma is429Check_no_val_throw (parse : String → Except JSValue JSValue)
    (e : JSValue) (v : JSValue) : is429Check parse e ≠ .error (.val v) := by
  cases e with
  | object fs => rw [is429Check_object]; simp
  | null => intro h; injection h with h2; exact Thrown.noConfusion h2
  | undefined => intro h; injection h with h2; exact Thrown.noConfusion h2
  | boolean b => intro h; exact Except.noConfusion h
  | number n => intro h; exact Except.noConfusion h
  | string s => intro h; exact Except.noConfusion h
  | array l => intro h; exact Except.noConfusion h

/-- On a non-nullish error value the classification returns a boolean. -/
lemma is429Check_returns (parse : String → Except JSValue JSValue)
    (e : JSValue) (h1 : e ≠ .null) (h2 : e ≠ .undefined) :
    ∃ b, is429Check parse e = .ok b := by
  cases e with
  | null => exact absurd rfl h1
  | undefined => exact absurd rfl h2
  | object fs => exact ⟨_, is429Check_object parse fs⟩
  | boolean b => exact ⟨false, rfl⟩
  | number n => exact ⟨false, rfl⟩
  | string s => exact ⟨false, rfl⟩
  | array l => exact ⟨false, rfl⟩

/-- The generic policy trivially never throws a plain value. -/
lemma genericPolicy_no_val_throw (e : JSValue) (v : JSValue) :
    (fun _ : JSValue => (.ok true : Except Thrown Bool)) e ≠ .error (.val v) := by
  intro h
  exact Except.noConfusion h

/-! ### Reach-based evaluation of the retry helpers -/

section ReachEval

variable {α : Type} (p : JSValue → Except Thrown Bool)
  (fn : Nat → Except JSValue α) (retries : Nat)

/-- If the run reaches attempt `k` and `fn` succeeds there, the helper
returns that value after exactly `k` invocations. -/
lemma retryLoop_reach_success {k : Nat} {v : α}
    (hr : Reaches p fn retries k) (hfn : fn k = .ok v) :
    (retryLoopGo p fn retries none 1 (retries + 1)).outcome = .ok v ∧
    (retryLoopGo p fn retries none 1 (retries + 1)).calls = k := by
  obtain ⟨hout, hcalls, pre, honr⟩ := retryLoopGo_reach_shift p fn retries hr
  obtain ⟨hk1, hk2, -⟩ := hr
  have hf : retries + 2 - k = (retries + 1 - k) + 1 := by omega
  have hstep := @retryLoopGo_step_ok _ p fn retries (retries + 1 - k) k none v hfn
  rw [hf, hstep] at hout hcalls
  refine ⟨hout, ?_⟩
  rw [hcalls]
  simp only []
  omega

/-- If the run reaches attempt `k`, `fn` fails there and the failure is not
retried (classified non-retryable, or no attempts remain), the helper
rethrows that failure after exactly `k` invocations. -/
lemma retryLoop_reach_throw {k : Nat} {e : JSValue} {b : Bool}
    (hr : Reaches p fn retries k) (hfn : fn k = .error e)
    (hp : p e = .ok b) (hc : ¬(b = true ∧ k ≤ retries)) :
    (retryLoopGo p fn retries none 1 (retries + 1)).outcome = .thrown (.val e) ∧
    (retryLoopGo p fn retries none 1 (retries + 1)).calls = k := by
  obtain ⟨hout, hcalls, pre, honr⟩ := retryLoopGo_reach_shift p fn retries hr
  obtain ⟨hk1, hk2, -⟩ := hr
  have hf : retries + 2 - k = (retries + 1 - k) + 1 := by omega
  have hstep := @retryLoopGo_step_throw _ p fn retries (retries + 1 - k) k none e b
    hfn hp hc
  rw [hf, hstep] at hout hcalls
  refine ⟨hout, ?_⟩
  rw [hcalls]
  simp only []
  omega

/-- If the run reaches attempt `k`, `fn` fails there and classifying the
failure itself throws, that exception propagates after exactly `k`
invocations. -/
lemma retryLoop_reach_perr {k : Nat} {e : JSValue} {t : Thrown}
    (hr : Reaches p fn retries k) (hfn : fn k = .error e)
    (hp : p e = .error t) :
    (retryLoopGo p fn retries none 1 (retries + 1)).outcome = .thrown t ∧
    (retryLoopGo p fn retries none 1 (retries + 1)).calls = k := by
  obtain ⟨hout, hcalls, pre, honr⟩ := retryLoopGo_reach_shift p fn retries hr
  obtain ⟨hk1, hk2, -⟩ := hr
  have hf : retries + 2 - k = (retries + 1 - k) + 1 := by omega
  have hstep := @retryLoopGo_step_perr _ p fn retries (retries + 1 - k) k none e t
    hfn hp
  rw [hf, hstep] at hout hcalls
  refine ⟨hout, ?_⟩
  rw [hcalls]
  simp only []
  omega

end ReachEval



/-! ## Claims about the retry helpers -/

/-- C1: for every operation `fn`, every retries bound `R ≥ 0` and every
delay, `withRetry` and `withGenericRetry` invoke `fn` at most `R + 1` times
in total, and if some invocation of `fn` succeeds they return that
invocation's result immediately with no further invocations of `fn`
(the successful invocation is the last one, so the total number of calls is
its index).  The delay does not appear in the model: it only suspends
between attempts and has no effect on the trace. -/
theorem c1_retry_bound_and_immediate_success (α : Type)
    (fn : Nat → Except JSValue α) (parse : String → Except JSValue JSValue)
    (retries : Nat) :
    (withRetry fn parse retries).calls ≤ retries + 1 ∧
    (withGenericRetry fn retries).calls ≤ retries + 1 ∧
    (∀ k v, Reaches (is429Check parse) fn retries k → fn k = .ok v →
      (withRetry fn parse retries).outcome = .ok v ∧
      (withRetry fn parse retries).calls = k) ∧
    (∀ k v, Reaches (fun _ => .ok true) fn retries k → fn k = .ok v →
      (withGenericRetry fn retries).outcome = .ok v ∧
      (withGenericRetry fn retries).calls = k) := by
  refine ⟨retryLoopGo_calls_le _ fn retries _ none 1,
          retryLoopGo_calls_le _ fn retries _ none 1, ?_, ?_⟩
  · intro k v hr hfn
    exact retryLoop_reach_success (is429Check parse) fn retries hr hfn
  · intro k v hr hfn
    exact retryLoop_reach_success (fun _ => .ok true) fn retries hr hfn

/-- Witness for C1: with `parse` recognizing a structured 429 payload, an
operation that rejects retryably once and then succeeds returns the success
of attempt 2 after exactly 2 invocations. -/
theorem c1_retry_bound_and_immediate_success_witness :
    (withRetry
        (fun k => if k = 1
          then .error (.object [("message", .string "x")])
          else .ok (7 : Nat))
        (fun _ => .ok (.object [("error", .object [("code", .number 429)])]))
        3).outcome = .ok 7 ∧
    (withRetry
        (fun k => if k = 1
          then .error (.object [("message", .string "x")])
          else .ok (7 : Nat))
        (fun _ => .ok (.object [("error", .object [("code", .number 429)])]))
        3).calls = 2 := by
  refine (c1_retry_bound_and_immediate_success Nat _ _ 3).2.2.1 2 7 ?_ rfl
  refine ⟨by omega, by omega, ?_⟩
  intro j hj1 hj2
  have hj : j = 1 := by omega
  subst hj
  exact ⟨.object [("message", .string "x")], rfl, rfl⟩

/-- C2 fails on the code: a thrown nullish error makes the classification
itself throw.  With `e = null`, evaluating `e.message` in the guard
`typeof e.message === 'string'` raises a `TypeError`, which nothing in
`withRetry` catches, so the caught error is neither classified
non-retryable nor rethrown as-is — `withRetry` propagates the `TypeError`
instead. -/
theorem c2_counterexample :
    is429Check (fun _ => .error JSValue.undefined) JSValue.null =
      .error (.typeErr "message") ∧
    (withRetry (fun _ => (.error JSValue.null : Except JSValue Nat))
        (fun _ => .error JSValue.undefined) 2).outcome =
      .thrown (.typeErr "message") := by
  exact ⟨rfl, rfl⟩

/-- C2 amended: for every *non-nullish* caught error the classification
returns without throwing, and it classifies the error retryable iff the
error is an object whose `message` member is a string that parses as a JSON
object whose `error.code` member equals the number 429; for a nullish error
the member access `e.message` itself throws a `TypeError`. -/
theorem c2_classifier_amended (parse : String → Except JSValue JSValue)
    (e : JSValue) (h1 : e ≠ .null) (h2 : e ≠ .undefined) :
    (∃ b, is429Check parse e = .ok b) ∧
    (is429Check parse e = .ok true ↔
      ∃ fs0 s fs fs2, e = .object fs0 ∧
        List.lookup "message" fs0 = some (.string s) ∧
        parse s = .ok (.object fs) ∧
        List.lookup "error" fs = some (.object fs2) ∧
        List.lookup "code" fs2 = some (.number 429)) := by
  refine ⟨is429Check_returns parse e h1 h2, ?_⟩
  cases e with
  | null => exact absurd rfl h1
  | undefined => exact absurd rfl h2
  | boolean b =>
    constructor
    · intro h; exact absurd h (by simp [is429Check, jsMember, jsMemberVal])
    · rintro ⟨fs0, s, fs, fs2, h, -⟩; exact JSValue.noConfusion h
  | number n =>
    constructor
    · intro h; exact absurd h (by simp [is429Check, jsMember, jsMemberVal])
    · rintro ⟨fs0, s, fs, fs2, h, -⟩; exact JSValue.noConfusion h
  | string s =>
    constructor
    · intro h; exact absurd h (by simp [is429Check, jsMember, jsMemberVal])
    · rintro ⟨fs0, s2, fs, fs2, h, -⟩; exact JSValue.noConfusion h
  | array l =>
    constructor
    · intro h; exact absurd h (by simp [is429Check, jsMember, jsMemberVal])
    · rintro ⟨fs0, s, fs, fs2, h, -⟩; exact JSValue.noConfusion h
  | object fs0 =>
    rw [is429Check_object]
    cases hm : List.lookup "message" fs0 with
    | none =>
      simp only [hm, Option.getD_none]
      constructor
      · intro h; simp at h
      · rintro ⟨fs0r, s, fs, fs2, heq, hmsg, -⟩
        injection heq with heq2
        subst heq2
        rw [hm] at hmsg
        exact Option.noConfusion hmsg
    | some m =>
      simp only [hm, Option.getD_some]
      cases m with
      | string s =>
        cases hps : parse s with
        | ok body =>
          simp only [hps]
          constructor
          · intro h
            simp only [Except.ok.injEq] at h
            obtain ⟨fs, fs2, hb, he, hc⟩ := (jsCodeIs429_iff body).mp h
            subst hb
            exact ⟨fs0, s, fs, fs2, rfl, hm, hps, he, hc⟩
          · rintro ⟨fs0r, s2, fs, fs2, heq, hmsg, hp2, he, hc⟩
            injection heq with heq2
            subst heq2
            rw [hm] at hmsg
            injection hmsg with hmsg2
            injection hmsg2 with hmsg3
            subst hmsg3
            rw [hps] at hp2
            injection hp2 with hp3
            subst hp3
            simp only [Except.ok.injEq]
            exact (jsCodeIs429_iff _).mpr ⟨fs, fs2, rfl, he, hc⟩
        | error perr =>
          simp only [hps]
          constructor
          · intro h; simp at h
          · rintro ⟨fs0r, s2, fs, fs2, heq, hmsg, hp2, -⟩
            injection heq with heq2
            subst heq2
            rw [hm] at hmsg
            injection hmsg with hmsg2
            injection hmsg2 with hmsg3
            subst hmsg3
            rw [hps] at hp2
            exact Except.noConfusion hp2
      | null =>
        constructor
        · intro h; simp at h
        · rintro ⟨fs0r, s, fs, fs2, heq, hmsg, -⟩
          injection heq with heq2
          subst heq2
          rw [hm] at hmsg
          injection hmsg with hmsg2
          exact JSValue.noConfusion hmsg2
      | undefined =>
        constructor
        · intro h; simp at h
        · rintro ⟨fs0r, s, fs, fs2, heq, hmsg, -⟩
          injection heq with heq2
          subst heq2
          rw [hm] at hmsg
          injection hmsg with hmsg2
          exact JSValue.noConfusion hmsg2
      | boolean b =>
        constructor
        · intro h; simp at h
        · rintro ⟨fs0r, s, fs, fs2, heq, hmsg, -⟩
          injection heq with heq2
          subst heq2
          rw [hm] at hmsg
          injection hmsg with hmsg2
          exact JSValue.noConfusion hmsg2
      | number n =>
        constructor
        · intro h; simp at h
        · rintro ⟨fs0r, s, fs, fs2, heq, hmsg, -⟩
          injection heq with heq2
          subst heq2
          rw [hm] at hmsg
          injection hmsg with hmsg2
          exact JSValue.noConfusion hmsg2
      | array l =>
        constructor
        · intro h; simp at h
        · rintro ⟨fs0r, s, fs, fs2, heq, hmsg, -⟩
          injection heq with heq2
          subst heq2
          rw [hm] at hmsg
          injection hmsg with hmsg2
          exact JSValue.noConfusion hmsg2
      | object fsm =>
        constructor
        · intro h; simp at h
        · rintro ⟨fs0r, s, fs, fs2, heq, hmsg, -⟩
          injection heq with heq2
          subst heq2
          rw [hm] at hmsg
          injection hmsg with hmsg2
          exact JSValue.noConfusion hmsg2

/-- Witness for C2 (amended): a structured 429 payload is classified
retryable, and classification returns on a non-nullish error. -/
theorem c2_classifier_amended_witness :
    is429Check
        (fun _ => .ok (.object [("error", .object [("code", .number 429)])]))
        (.object [("message", .string "m")]) = .ok true := by
  refine ((c2_classifier_amended
      (fun _ => .ok (.object [("error", .object [("code", .number 429)])]))
      (.object [("message", .string "m")])
      (fun h => JSValue.noConfusion h) (fun h => JSValue.noConfusion h)).2).mpr ?_
  exact ⟨[("message", .string "m")], "m",
    [("error", .object [("code", .number 429)])], [("code", .number 429)],
    rfl, rfl, rfl, rfl, rfl⟩

/-- C4 fails on the code: the claim predicts `min(attempts_used, R)`
`onRetry` calls, but an operation that succeeds on its first attempt with
`R = 1` uses one attempt and fires `onRetry` zero times, while
`min(1, 1) = 1`. -/
theorem c4_counterexample :
    (withGenericRetry (fun _ => .ok (0 : Nat)) 1).onRetry.length ≠
      min ((withGenericRetry (fun _ => .ok (0 : Nat)) 1).calls) 1 := by
  decide

/-- C4 amended: both helpers call `onRetry` exactly `attempts_used - 1`
times (hence at most `R` times), and the attempt numbers passed to
successive `onRetry` calls are exactly `1, 2, ..., attempts_used - 1`:
1-based, strictly increasing, consecutive. -/
theorem c4_onRetry_amended (α : Type) (fn : Nat → Except JSValue α)
    (parse : String → Except JSValue JSValue) (retries : Nat) :
    ((withRetry fn parse retries).onRetry.length =
        (withRetry fn parse retries).calls - 1 ∧
      (withRetry fn parse retries).onRetry.map Prod.fst =
        List.range' 1 ((withRetry fn parse retries).calls - 1)) ∧
    ((withGenericRetry fn retries).onRetry.length =
        (withGenericRetry fn retries).calls - 1 ∧
      (withGenericRetry fn retries).onRetry.map Prod.fst =
        List.range' 1 ((withGenericRetry fn retries).calls - 1)) := by
  have h1 := retryLoopGo_onRetry_map (is429Check parse) fn retries
    (retries + 1) 1 none (by omega)
  have h2 := retryLoopGo_onRetry_map (fun _ => .ok true) fn retries
    (retries + 1) 1 none (by omega)
  refine ⟨⟨?_, h1⟩, ⟨?_, h2⟩⟩
  · have := congrArg List.length h1
    simpa using this
  · have := congrArg List.length h2
    simpa using this

/-- C5 fails on the code for `withRetry`: when the operation's last failure
is a nullish value, the retry bound is exhausted but `withRetry` does not
rethrow that error — evaluating `e.message` during classification throws a
`TypeError`, and that `TypeError` is what reaches the caller instead of the
operation's own error (`null`). -/
theorem c5_counterexample :
    (withRetry (fun _ => (.error JSValue.null : Except JSValue Nat))
        (fun _ => .error JSValue.undefined) 0).outcome =
      .thrown (.typeErr "message") ∧
    (withRetry (fun _ => (.error JSValue.null : Except JSValue Nat))
        (fun _ => .error JSValue.undefined) 0).outcome ≠
      .thrown (.val JSValue.null) := by
  constructor
  · rfl
  · intro h
    rw [show (withRetry (fun _ => (.error JSValue.null : Except JSValue Nat))
        (fun _ => .error JSValue.undefined) 0).outcome =
      .thrown (.typeErr "message") from rfl] at h
    injection h with h2
    exact Thrown.noConfusion h2

/-- C5 amended: whenever the caught error is classified non-retryable or
the retry bound is exhausted, both helpers propagate the last error thrown
by the operation — except that `withRetry`, on a nullish caught error,
instead propagates the `TypeError` raised while inspecting `error.message`.
No error is swallowed and no substitute success value is returned. -/
theorem c5_propagation_amended (α : Type) (fn : Nat → Except JSValue α)
    (parse : String → Except JSValue JSValue) (retries : Nat) :
    (∀ e, (withRetry fn parse retries).outcome = .thrown (.val e) →
      fn ((withRetry fn parse retries).calls) = .error e) ∧
    (∀ e, (withGenericRetry fn retries).outcome = .thrown (.val e) →
      fn ((withGenericRetry fn retries).calls) = .error e) ∧
    (∀ k e b, Reaches (is429Check parse) fn retries k → fn k = .error e →
      is429Check parse e = .ok b → ¬(b = true ∧ k ≤ retries) →
      (withRetry fn parse retries).outcome = .thrown (.val e) ∧
      (withRetry fn parse retries).calls = k) ∧
    (∀ k e, Reaches (fun _ => .ok true) fn retries k → fn k = .error e →
      k = retries + 1 →
      (withGenericRetry fn retries).outcome = .thrown (.val e) ∧
      (withGenericRetry fn retries).calls = k) ∧
    (∀ k, Reaches (is429Check parse) fn retries k →
      (fn k = .error .null ∨ fn k = .error .undefined) →
      (withRetry fn parse retries).outcome = .thrown (.typeErr "message")) := by
  refine ⟨?_, ?_, ?_, ?_, ?_⟩
  · intro e h
    have := retryLoopGo_thrown_char (is429Check parse) fn retries
      (fun e2 v => is429Check_no_val_throw parse e2 v) (retries + 1) none 1 e h
    have harith :
        1 + (retryLoopGo (is429Check parse) fn retries none 1 (retries + 1)).calls - 1 =
        (retryLoopGo (is429Check parse) fn retries none 1 (retries + 1)).calls := by
      omega
    rwa [harith] at this
  · intro e h
    have := retryLoopGo_thrown_char (fun _ => .ok true) fn retries
      (fun e2 v => genericPolicy_no_val_throw e2 v) (retries + 1) none 1 e h
    have harith :
        1 + (retryLoopGo (fun _ => .ok true) fn retries none 1 (retries + 1)).calls - 1 =
        (retryLoopGo (fun _ => .ok true) fn retries none 1 (retries + 1)).calls := by
      omega
    rwa [harith] at this
  · intro k e b hr hfn hp hc
    exact retryLoop_reach_throw (is429Check parse) fn retries hr hfn hp hc
  · intro k e hr hfn hk
    exact retryLoop_reach_throw (fun _ => .ok true) fn retries hr hfn rfl
      (by omega)
  · intro k hr hfn
    cases hfn with
    | inl h => exact (retryLoop_reach_perr (is429Check parse) fn retries hr h rfl).1
    | inr h => exact (retryLoop_reach_perr (is429Check parse) fn retries hr h rfl).1

/-- Witness for C5 (amended): an operation whose single allowed attempt
rejects with a non-retryable (non-429) error has that same error rethrown
after exactly one invocation. -/
theorem c5_propagation_amended_witness :
    (withRetry (fun _ => (.error (.string "boom") : Except JSValue Nat))
        (fun _ => .error JSValue.undefined) 4).outcome =
      .thrown (.val (.string "boom")) ∧
    (withRetry (fun _ => (.error (.string "boom") : Except JSValue Nat))
        (fun _ => .error JSValue.undefined) 4).calls = 1 := by
  refine (c5_propagation_amended Nat
      (fun _ => .error (.string "boom"))
      (fun _ => .error JSValue.undefined) 4).2.2.1 1 (.string "boom") false
    ⟨by omega, by omega, fun j hj1 hj2 => by omega⟩ rfl rfl ?_
  intro h
  exact Bool.noConfusion h.1

/-- C10: for every retries bound `R ≥ 0`, the trailing `throw lastError`
after the attempt loop is unreachable — every call to `withRetry` or
`withGenericRetry` either returns a value produced by the operation or
rethrows an exception from inside the loop, never the initial undefined
`lastError`. -/
theorem c10_trailing_throw_unreachable (α : Type)
    (fn : Nat → Except JSValue α) (parse : String → Except JSValue JSValue)
    (retries : Nat) :
    ((∃ v, (withRetry fn parse retries).outcome = .ok v) ∨
      (∃ t, (withRetry fn parse retries).outcome = .thrown t)) ∧
    ((∃ v, (withGenericRetry fn retries).outcome = .ok v) ∨
      (∃ t, (withGenericRetry fn retries).outcome = .thrown t)) := by
  constructor
  · cases h : (withRetry fn parse retries).outcome with
    | ok v => exact Or.inl ⟨v, rfl⟩
    | thrown t => exact Or.inr ⟨t, rfl⟩
    | fallthrough le =>
      exact absurd h (retryLoopGo_no_fallthrough (is429Check parse) fn retries
        (retries + 1) 1 none (by omega) (by omega) le)
  · cases h : (withGenericRetry fn retries).outcome with
    | ok v => exact Or.inl ⟨v, rfl⟩
    | thrown t => exact Or.inr ⟨t, rfl⟩
    | fallthrough le =>
      exact absurd h (retryLoopGo_no_fallthrough (fun _ => .ok true) fn retries
        (retries + 1) 1 none (by omega) (by omega) le)


/-! ### Basic lemmas on `listModify` and `chunks` -/

section ListLemmas

variable {α : Type}

lemma listModify_length (j : Nat) (f : α → α) :
    ∀ l : List α, (listModify j f l).length = l.length := by
  induction j generalizing f with
  | zero => intro l; cases l <;> simp [listModify]
  | succ jj ih =>
    intro l
    cases l with
    | nil => simp [listModify]
    | cons x xs => simp [listModify, ih]

lemma listModify_id (j : Nat) :
    ∀ l : List α, listModify j (fun r => r) l = l := by
  induction j with
  | zero => intro l; cases l <;> simp [listModify]
  | succ jj ih =>
    intro l
    cases l with
    | nil => simp [listModify]
    | cons x xs => simp [listModify, ih]

lemma getD_listModify_ne (j i : Nat) (f : α → α) (d : α) (hne : i ≠ j) :
    ∀ l : List α, (listModify j f l).getD i d = l.getD i d := by
  induction j generalizing f i with
  | zero =>
    intro l
    cases l with
    | nil => simp [listModify]
    | cons x xs =>
      cases i with
      | zero => exact absurd rfl hne
      | succ ii => simp [listModify]
  | succ jj ih =>
    intro l
    cases l with
    | nil => simp [listModify]
    | cons x xs =>
      cases i with
      | zero => simp [listModify]
      | succ ii =>
        simp only [listModify, List.getD_cons_succ]
        exact ih ii f (fun h => hne (by omega)) xs

lemma getD_listModify_self (j : Nat) (f : α → α) (d : α) :
    ∀ l : List α, j < l.length → (listModify j f l).getD j d = f (l.getD j d) := by
  induction j generalizing f with
  | zero =>
    intro l hl
    cases l with
    | nil => simp at hl
    | cons x xs => simp [listModify]
  | succ jj ih =>
    intro l hl
    cases l with
    | nil => simp at hl
    | cons x xs =>
      simp only [listModify, List.getD_cons_succ]
      exact ih f xs (by simpa using hl)

lemma chunksGo_flatten (C : Nat) (hC : 1 ≤ C) :
    ∀ fuel (xs : List α), xs.length ≤ fuel →
      (chunksGo C fuel xs).flatten = xs := by
  intro fuel
  induction fuel with
  | zero =>
    intro xs hxs
    have : xs = [] := List.eq_nil_of_length_eq_zero (by omega)
    subst this
    simp [chunksGo]
  | succ f ih =>
    intro xs hxs
    cases xs with
    | nil => simp [chunksGo]
    | cons x xs2 =>
      simp only [chunksGo, List.flatten_cons]
      have hd : ((x :: xs2).drop C).length ≤ f := by
        simp only [List.length_cons] at hxs
        simp only [List.length_drop, List.length_cons]
        omega
      rw [ih ((x :: xs2).drop C) hd]
      exact List.take_append_drop C (x :: xs2)

lemma chunks_flatten (C : Nat) (hC : 1 ≤ C) (xs : List α) :
    (chunks C xs).flatten = xs :=
  chunksGo_flatten C hC xs.length xs le_rfl

lemma chunksGo_take_flatten (C : Nat) (hC : 1 ≤ C) :
    ∀ fuel (xs : List α) t, xs.length ≤ fuel →
      ((chunksGo C fuel xs).take t).flatten = xs.take (t * C) := by
  intro fuel
  induction fuel with
  | zero =>
    intro xs t hxs
    have : xs = [] := List.eq_nil_of_length_eq_zero (by omega)
    subst this
    simp [chunksGo]
  | succ f ih =>
    intro xs t hxs
    cases xs with
    | nil => simp [chunksGo]
    | cons x xs2 =>
      cases t with
      | zero => simp
      | succ t2 =>
        simp only [chunksGo, List.take_succ_cons, List.flatten_cons]
        have hd : ((x :: xs2).drop C).length ≤ f := by
          simp only [List.length_cons] at hxs
          simp only [List.length_drop, List.length_cons]
          omega
        rw [ih ((x :: xs2).drop C) t2 hd]
        have : (t2 + 1) * C = C + t2 * C := by ring
        rw [this, List.take_add]

lemma chunks_take_flatten (C : Nat) (hC : 1 ≤ C) (xs : List α) (t : Nat) :
    ((chunks C xs).take t).flatten = xs.take (t * C) :=
  chunksGo_take_flatten C hC xs.length xs t le_rfl

lemma chunksGo_length (C : Nat) (hC : 1 ≤ C) :
    ∀ fuel (xs : List α), xs.length ≤ fuel →
      (chunksGo C fuel xs).length = (xs.length + C - 1) / C := by
  intro fuel
  induction fuel with
  | zero =>
    intro xs hxs
    have : xs = [] := List.eq_nil_of_length_eq_zero (by omega)
    subst this
    simp only [chunksGo, List.length_nil]
    exact (Nat.div_eq_of_lt (by omega)).symm
  | succ f ih =>
    intro xs hxs
    cases xs with
    | nil =>
      simp only [chunksGo, List.length_nil]
      exact (Nat.div_eq_of_lt (by omega)).symm
    | cons x xs2 =>
      simp only [chunksGo, List.length_cons]
      have hd : ((x :: xs2).drop C).length ≤ f := by
        simp only [List.length_cons] at hxs
        simp only [List.length_drop, List.length_cons]
        omega
      rw [ih ((x :: xs2).drop C) hd]
      rcases Nat.lt_or_ge C (x :: xs2).length with hlt | hge
      · have hl2 : C < xs2.length + 1 := by simpa using hlt
        have hn : (List.drop C (x :: xs2)).length = xs2.length + 1 - C := by
          simp only [List.length_drop, List.length_cons]
        rw [hn]
        have e1 : xs2.length + 1 + C - 1 =
            ((xs2.length + 1 - C) + C - 1) + C := by omega
        rw [e1, Nat.add_div_right _ (by omega)]
      · have hge2 : xs2.length + 1 ≤ C := by simpa using hge
        have hn : (List.drop C (x :: xs2)).length = 0 := by
          simp only [List.length_drop, List.length_cons]
          omega
        rw [hn]
        have h2 : (0 + C - 1) / C = 0 := Nat.div_eq_of_lt (by omega)
        rw [h2]
        have h3 : xs2.length + 1 + C - 1 = xs2.length + C := by omega
        rw [h3, Nat.add_div_right _ (by omega), Nat.div_eq_of_lt (by omega)]

lemma chunks_length (C : Nat) (hC : 1 ≤ C) (xs : List α) :
    (chunks C xs).length = (xs.length + C - 1) / C :=
  chunksGo_length C hC xs.length xs le_rfl

lemma chunksGo_mem (C : Nat) (hC : 1 ≤ C) :
    ∀ fuel (xs : List α) w, xs.length ≤ fuel → w ∈ chunksGo C fuel xs →
      w.length ≤ C ∧ w ≠ [] := by
  intro fuel
  induction fuel with
  | zero =>
    intro xs w hxs hw
    have : xs = [] := List.eq_nil_of_length_eq_zero (by omega)
    subst this
    simp [chunksGo] at hw
  | succ f ih =>
    intro xs w hxs hw
    cases xs with
    | nil => simp [chunksGo] at hw
    | cons x xs2 =>
      simp only [chunksGo, List.mem_cons] at hw
      cases hw with
      | inl h =>
        subst h
        constructor
        · simp
        · simp
          omega
      | inr h =>
        have hd : ((x :: xs2).drop C).length ≤ f := by
          simp only [List.length_cons] at hxs
          simp only [List.length_drop, List.length_cons]
          omega
        exact ih ((x :: xs2).drop C) w hd h

lemma chunks_mem (C : Nat) (hC : 1 ≤ C) (xs : List α) (w : List α)
    (hw : w ∈ chunks C xs) : w.length ≤ C ∧ w ≠ [] :=
  chunksGo_mem C hC xs.length xs w le_rfl hw

/-- Every index in the `k`-th window of `chunks C (range L)` is below
`(k + 1) * C`. -/
lemma chunks_range_mem_lt (C : Nat) (hC : 1 ≤ C) (L k x : Nat)
    (hk : k < (chunks C (List.range L)).length)
    (hx : x ∈ (chunks C (List.range L)).getD k []) : x < (k + 1) * C := by
  set ws := chunks C (List.range L) with hws
  have hget : ws.getD k [] = ws[k] := List.getD_eq_getElem ws [] hk
  rw [hget] at hx
  have hmemtake : ws[k] ∈ ws.take (k + 1) := by
    have hk2 : k < (ws.take (k + 1)).length := by
      simp
      omega
    have : (ws.take (k + 1))[k] = ws[k] := List.getElem_take ws
    rw [← this]
    exact List.getElem_mem hk2
  have hflat : x ∈ (ws.take (k + 1)).flatten :=
    List.mem_flatten.mpr ⟨ws[k], hmemtake, hx⟩
  rw [hws, chunks_take_flatten C hC (List.range L) (k + 1),
    List.take_range] at hflat
  have := List.mem_range.mp hflat
  omega

end ListLemmas


/-! ### State lemmas for the scheduler -/

section SchedLemmas

variable (ops : List OpResult)

/-- Compact characterization of a job settle: index `j` is overwritten by
`settledResult` under the current flag, the progress counter is bumped iff
the flag is set, and the flag and window counter are untouched. -/
lemma settleJob_eq (j : Nat) (s : RunState) :
    settleJob ops j s =
      ⟨listModify j
          (fun r => settledResult r (ops.getD j (.reject "")) s.isRunning)
          s.results,
        if s.isRunning then s.completedJobs + 1 else s.completedJobs,
        s.isRunning, s.windowsExecuted⟩ := by
  obtain ⟨res, cj, ir, we⟩ := s
  cases hop : ops.getD j (.reject "") with
  | reject msg =>
    simp only [settleJob]
    rw [hop]
    cases ir <;> simp [finallyStep, settledResult]
  | resolve img =>
    simp only [settleJob]
    rw [hop]
    cases ir with
    | false => simp [settledResult, listModify_id]
    | true =>
      cases img with
      | none => simp [settledResult, finallyStep]
      | some md =>
        cases md with
        | mk mime data => simp [settledResult, finallyStep]

lemma settleJob_isRunning (j : Nat) (s : RunState) :
    (settleJob ops j s).isRunning = s.isRunning := by
  rw [settleJob_eq]

lemma settleJob_windows (j : Nat) (s : RunState) :
    (settleJob ops j s).windowsExecuted = s.windowsExecuted := by
  rw [settleJob_eq]

lemma settleJob_length (j : Nat) (s : RunState) :
    (settleJob ops j s).results.length = s.results.length := by
  rw [settleJob_eq]
  exact listModify_length j _ s.results

lemma stepEvent_windows (s : RunState) (e : SchedEvent) :
    (stepEvent ops s e).windowsExecuted = s.windowsExecuted := by
  cases e with
  | settle j => exact settleJob_windows ops j s
  | cancel => rfl

lemma stepEvent_length (s : RunState) (e : SchedEvent) :
    (stepEvent ops s e).results.length = s.results.length := by
  cases e with
  | settle j => exact settleJob_length ops j s
  | cancel => rfl

lemma stepEvent_false_mono (s : RunState) (e : SchedEvent)
    (h : s.isRunning = false) : (stepEvent ops s e).isRunning = false := by
  cases e with
  | settle j =>
    rw [show stepEvent ops s (.settle j) = settleJob ops j s from rfl,
      settleJob_isRunning]
    exact h
  | cancel => rfl

lemma processWindow_cons (s : RunState) (e : SchedEvent) (σ : List SchedEvent) :
    processWindow ops s (e :: σ) = processWindow ops (stepEvent ops s e) σ := rfl

lemma processWindow_windows (σ : List SchedEvent) :
    ∀ s, (processWindow ops s σ).windowsExecuted = s.windowsExecuted := by
  induction σ with
  | nil => intro s; rfl
  | cons e σ2 ih =>
    intro s
    rw [processWindow_cons, ih (stepEvent ops s e), stepEvent_windows]

lemma processWindow_length (σ : List SchedEvent) :
    ∀ s, (processWindow ops s σ).results.length = s.results.length := by
  induction σ with
  | nil => intro s; rfl
  | cons e σ2 ih =>
    intro s
    rw [processWindow_cons, ih (stepEvent ops s e), stepEvent_length]

lemma processWindow_false_mono (σ : List SchedEvent) :
    ∀ s, s.isRunning = false → (processWindow ops s σ).isRunning = false := by
  induction σ with
  | nil => intro s h; exact h
  | cons e σ2 ih =>
    intro s h
    rw [processWindow_cons]
    exact ih (stepEvent ops s e) (stepEvent_false_mono ops s e h)

lemma processWindow_nocancel_run (σ : List SchedEvent)
    (hnc : ∀ e ∈ σ, e ≠ SchedEvent.cancel) :
    ∀ s, (processWindow ops s σ).isRunning = s.isRunning := by
  induction σ with
  | nil => intro s; rfl
  | cons e σ2 ih =>
    intro s
    rw [processWindow_cons]
    cases e with
    | settle j =>
      rw [ih (fun e2 he2 => hnc e2 (by simp [he2])) (stepEvent ops s (.settle j))]
      exact settleJob_isRunning ops j s
    | cancel => exact absurd rfl (hnc .cancel (by simp))

lemma processWindow_cancel_false (σ : List SchedEvent) :
    ∀ s, SchedEvent.cancel ∈ σ → (processWindow ops s σ).isRunning = false := by
  induction σ with
  | nil => intro s h; simp at h
  | cons e σ2 ih =>
    intro s h
    rw [processWindow_cons]
    cases e with
    | cancel => exact processWindow_false_mono ops σ2 _ rfl
    | settle j =>
      have : SchedEvent.cancel ∈ σ2 := by
        rcases List.mem_cons.mp h with h1 | h1
        · exact absurd h1 (by simp)
        · exact h1
      exact ih _ this

lemma processWindow_untouched (σ : List SchedEvent) (j : Nat)
    (hj : j ∉ settlesOf σ) :
    ∀ s, resultAt (processWindow ops s σ) j = resultAt s j := by
  induction σ with
  | nil => intro s; rfl
  | cons e σ2 ih =>
    intro s
    have hj2 : j ∉ settlesOf σ2 := by
      intro h
      apply hj
      cases e with
      | settle j2 =>
        simp only [settlesOf, List.filterMap_cons] at h ⊢
        simp only [List.mem_cons]
        right
        exact h
      | cancel => simpa [settlesOf, List.filterMap_cons] using h
    rw [processWindow_cons, ih hj2 (stepEvent ops s e)]
    cases e with
    | cancel => rfl
    | settle j2 =>
      have hne : j ≠ j2 := by
        intro h
        subst h
        exact hj (by simp [settlesOf, List.filterMap_cons])
      show resultAt (settleJob ops j2 s) j = resultAt s j
      simp only [resultAt]
      rw [settleJob_eq]
      exact getD_listModify_ne j2 j _ _ hne s.results

/-- If `j` settles exactly once in `σ` and the flag is constant through `σ`
(it is `false` already, or no cancel occurs), the final outcome at `j` is
`settledResult` of its operation under that flag. -/
lemma processWindow_settle_once (σ : List SchedEvent) (j : Nat) :
    ∀ s, (s.isRunning = false ∨ ∀ e ∈ σ, e ≠ SchedEvent.cancel) →
      (settlesOf σ).count j = 1 → j < s.results.length →
      resultAt (processWindow ops s σ) j =
        settledResult (resultAt s j) (ops.getD j (.reject "")) s.isRunning := by
  induction σ with
  | nil => intro s _ hcount _; simp [settlesOf] at hcount
  | cons e σ2 ih =>
    intro s hflag hcount hlen
    rw [processWindow_cons]
    cases e with
    | cancel =>
      have hf : s.isRunning = false := by
        rcases hflag with h | h
        · exact h
        · exact absurd rfl (h .cancel (by simp))
      have hcount2 : (settlesOf σ2).count j = 1 := by
        simpa [settlesOf, List.filterMap_cons] using hcount
      have hstep : stepEvent ops s .cancel = { s with isRunning := false } := rfl
      rw [hstep]
      have := ih { s with isRunning := false } (Or.inl rfl) hcount2 hlen
      rw [this]
      simp [resultAt, hf]
    | settle j2 =>
      by_cases hj : j2 = j
      · subst hj
        have hcone : (settlesOf (SchedEvent.settle j2 :: σ2)).count j2 =
            (settlesOf σ2).count j2 + 1 := by
          simp [settlesOf, List.filterMap_cons]
        have hcount2 : (settlesOf σ2).count j2 = 0 := by omega
        have hnot : j2 ∉ settlesOf σ2 := by
          intro hmem
          have := List.count_pos_iff.mpr hmem
          omega
        rw [processWindow_untouched ops σ2 j2 hnot]
        show resultAt (settleJob ops j2 s) j2 = _
        simp only [resultAt]
        rw [settleJob_eq]
        simp only []
        rw [getD_listModify_self j2 _ _ s.results hlen]
      · have hceq : (settlesOf (SchedEvent.settle j2 :: σ2)).count j =
            (settlesOf σ2).count j := by
          simp only [settlesOf, List.filterMap_cons]
          rw [List.count_cons]
          simp [hj]
        have hcount2 : (settlesOf σ2).count j = 1 := by omega
        have hflag2 : (stepEvent ops s (.settle j2)).isRunning = false ∨
            ∀ e ∈ σ2, e ≠ SchedEvent.cancel := by
          rcases hflag with h | h
          · exact Or.inl (by
              rw [show stepEvent ops s (.settle j2) = settleJob ops j2 s from rfl,
                settleJob_isRunning]
              exact h)
          · exact Or.inr (fun e he => h e (by simp [he]))
        have hlen2 : j < (stepEvent ops s (.settle j2)).results.length := by
          rw [stepEvent_length]
          exact hlen
        have hih := ih (stepEvent ops s (.settle j2)) hflag2 hcount2 hlen2
        rw [hih]
        have hrun : (stepEvent ops s (.settle j2)).isRunning = s.isRunning :=
          settleJob_isRunning ops j2 s
        rw [hrun]
        have huntouch :
            resultAt (stepEvent ops s (.settle j2)) j = resultAt s j := by
          show resultAt (settleJob ops j2 s) j = resultAt s j
          simp only [resultAt]
          rw [settleJob_eq]
          exact getD_listModify_ne j2 j _ _ (fun h => hj h.symm) s.results
        rw [huntouch]

end SchedLemmas


section SchedLoopLemmas

variable (ops : List OpResult)

lemma schedLoop_nil_windows (σs : List (List SchedEvent)) (s : RunState) :
    schedLoop ops [] σs s = s := by
  cases σs <;> rfl

lemma schedLoop_nil_scheds (ws : List (List Nat)) (s : RunState) :
    schedLoop ops ws [] s = s := by
  cases ws <;> rfl

lemma schedLoop_cons (w : List Nat) (ws : List (List Nat))
    (σ : List SchedEvent) (σs : List (List SchedEvent)) (s : RunState) :
    schedLoop ops (w :: ws) (σ :: σs) s =
      if s.isRunning then
        schedLoop ops ws σs
          (processWindow ops { s with windowsExecuted := s.windowsExecuted + 1 } σ)
      else s := rfl

lemma schedLoop_not_running (ws : List (List Nat))
    (σs : List (List SchedEvent)) (s : RunState) (h : s.isRunning = false) :
    schedLoop ops ws σs s = s := by
  cases ws with
  | nil => exact schedLoop_nil_windows ops σs s
  | cons w ws2 =>
    cases σs with
    | nil => rfl
    | cons σ σs2 => rw [schedLoop_cons, if_neg (by simp [h])]

lemma schedLoop_windows_le (ws : List (List Nat)) :
    ∀ (σs : List (List SchedEvent)) (s : RunState),
      (schedLoop ops ws σs s).windowsExecuted ≤
        s.windowsExecuted + ws.length := by
  induction ws with
  | nil => intro σs s; rw [schedLoop_nil_windows]; omega
  | cons w ws2 ih =>
    intro σs s
    cases σs with
    | nil => rw [schedLoop_nil_scheds]; omega
    | cons σ σs2 =>
      rw [schedLoop_cons]
      by_cases h : s.isRunning
      · rw [if_pos h]
        have h1 := ih σs2
          (processWindow ops { s with windowsExecuted := s.windowsExecuted + 1 } σ)
        have h2 : (processWindow ops
            { s with windowsExecuted := s.windowsExecuted + 1 } σ).windowsExecuted =
            s.windowsExecuted + 1 := by
          rw [processWindow_windows]
        rw [h2] at h1
        simp only [List.length_cons]
        omega
      · rw [if_neg h]
        omega

lemma schedLoop_length (ws : List (List Nat)) :
    ∀ (σs : List (List SchedEvent)) (s : RunState),
      (schedLoop ops ws σs s).results.length = s.results.length := by
  induction ws with
  | nil => intro σs s; rw [schedLoop_nil_windows]
  | cons w ws2 ih =>
    intro σs s
    cases σs with
    | nil => rw [schedLoop_nil_scheds]
    | cons σ σs2 =>
      rw [schedLoop_cons]
      by_cases h : s.isRunning
      · rw [if_pos h, ih σs2 _, processWindow_length]
      · rw [if_neg h]

lemma schedLoop_untouched (j : Nat) (ws : List (List Nat)) :
    ∀ (σs : List (List SchedEvent)) (s : RunState),
      (∀ σ ∈ σs, j ∉ settlesOf σ) →
      resultAt (schedLoop ops ws σs s) j = resultAt s j := by
  induction ws with
  | nil => intro σs s _; rw [schedLoop_nil_windows]
  | cons w ws2 ih =>
    intro σs s hnot
    cases σs with
    | nil => rw [schedLoop_nil_scheds]
    | cons σ σs2 =>
      rw [schedLoop_cons]
      by_cases h : s.isRunning
      · rw [if_pos h, ih σs2 _ (fun σ2 hσ2 => hnot σ2 (by simp [hσ2])),
          processWindow_untouched ops σ j (hnot σ (by simp))]
        rfl
      · rw [if_neg h]

lemma schedLoop_flag_false_of_cancel (ws : List (List Nat)) :
    ∀ (σs : List (List SchedEvent)) (s : RunState) (m : Nat),
      ws.length = σs.length → m < σs.length →
      SchedEvent.cancel ∈ σs.getD m [] →
      (schedLoop ops ws σs s).isRunning = false := by
  induction ws with
  | nil =>
    intro σs s m hlen hm _
    rw [schedLoop_nil_windows]
    simp at hlen
    omega
  | cons w ws2 ih =>
    intro σs s m hlen hm hc
    cases σs with
    | nil => simp at hm
    | cons σ σs2 =>
      rw [schedLoop_cons]
      by_cases h : s.isRunning
      · rw [if_pos h]
        cases m with
        | zero =>
          simp only [List.getD_cons_zero] at hc
          rw [schedLoop_not_running ops ws2 σs2 _
            (processWindow_cancel_false ops σ _ hc)]
          exact processWindow_cancel_false ops σ _ hc
        | succ m2 =>
          exact ih σs2 _ m2 (by simpa using hlen) (by simpa using hm)
            (by simpa using hc)
      · rw [if_neg h]
        simpa using h

lemma schedLoop_append (ws1 ws2 : List (List Nat)) :
    ∀ (σs1 σs2 : List (List SchedEvent)) (s : RunState),
      ws1.length = σs1.length →
      schedLoop ops (ws1 ++ ws2) (σs1 ++ σs2) s =
        schedLoop ops ws2 σs2 (schedLoop ops ws1 σs1 s) := by
  induction ws1 with
  | nil =>
    intro σs1 σs2 s hlen
    have : σs1 = [] := List.eq_nil_of_length_eq_zero (by simpa using hlen.symm)
    subst this
    rw [schedLoop_nil_windows]
    rfl
  | cons w ws1b ih =>
    intro σs1 σs2 s hlen
    cases σs1 with
    | nil => simp at hlen
    | cons σ σs1b =>
      simp only [List.cons_append]
      rw [schedLoop_cons, schedLoop_cons]
      by_cases h : s.isRunning
      · rw [if_pos h, if_pos h, ih σs1b σs2 _ (by simpa using hlen)]
      · rw [if_neg h, if_neg h, schedLoop_not_running ops ws2 σs2 s (by simpa using h)]

/-- A helper: every schedule in a `Forall₂`-valid list corresponds to some
window. -/
lemma validScheds_mem_right {ws : List (List Nat)}
    {σs : List (List SchedEvent)}
    (hv : List.Forall₂ (fun w σ => (settlesOf σ).Perm w) ws σs)
    {σ : List SchedEvent} (hσ : σ ∈ σs) :
    ∃ w ∈ ws, (settlesOf σ).Perm w := by
  induction hv with
  | nil => simp at hσ
  | cons hR hrest ih =>
    rcases List.mem_cons.mp hσ with h | h
    · subst h
      exact ⟨_, by simp, hR⟩
    · obtain ⟨w2, hw2, hp⟩ := ih h
      exact ⟨w2, by simp [hw2], hp⟩

/-- Absent cancellation, the loop enters every window and the flag stays
set. -/
lemma schedLoop_complete {ws : List (List Nat)} {σs : List (List SchedEvent)}
    (hv : List.Forall₂ (fun w σ => (settlesOf σ).Perm w) ws σs)
    (hnc : ∀ σ ∈ σs, SchedEvent.cancel ∉ σ) :
    ∀ s, s.isRunning = true →
      (schedLoop ops ws σs s).isRunning = true ∧
      (schedLoop ops ws σs s).windowsExecuted =
        s.windowsExecuted + ws.length := by
  induction hv with
  | nil =>
    intro s hrun
    rw [schedLoop_nil_windows]
    exact ⟨hrun, by simp⟩
  | @cons w σ ws2 σs2 hR hrest ih =>
    intro s hrun
    rw [schedLoop_cons, if_pos (by simp [hrun])]
    have hσnc : ∀ e ∈ σ, e ≠ SchedEvent.cancel := by
      intro e he hcon
      subst hcon
      exact hnc σ (by simp) he
    have hrun2 : (processWindow ops
        { s with windowsExecuted := s.windowsExecuted + 1 } σ).isRunning = true := by
      rw [processWindow_nocancel_run ops σ hσnc]
      exact hrun
    obtain ⟨h1, h2⟩ := ih (fun σ2 hσ2 => hnc σ2 (by simp [hσ2])) _ hrun2
    refine ⟨h1, ?_⟩
    rw [h2, processWindow_windows]
    simp only [List.length_cons]
    omega

/-- Absent cancellation, a job settling exactly once across the windows
ends with `settledResult` of its operation under the set flag. -/
lemma schedLoop_result_once {ws : List (List Nat)} {σs : List (List SchedEvent)}
    (hv : List.Forall₂ (fun w σ => (settlesOf σ).Perm w) ws σs)
    (hnc : ∀ σ ∈ σs, SchedEvent.cancel ∉ σ) (j : Nat) :
    ∀ s, s.isRunning = true → ws.flatten.count j = 1 → j < s.results.length →
      resultAt (schedLoop ops ws σs s) j =
        settledResult (resultAt s j) (ops.getD j (.reject "")) true := by
  induction hv with
  | nil =>
    intro s _ hcount _
    simp at hcount
  | @cons w σ ws2 σs2 hR hrest ih =>
    intro s hrun hcount hlen
    rw [schedLoop_cons, if_pos (by simp [hrun])]
    have hσnc : ∀ e ∈ σ, e ≠ SchedEvent.cancel := by
      intro e he hcon
      subst hcon
      exact hnc σ (by simp) he
    have hsplit : w.count j + ws2.flatten.count j = 1 := by
      have := List.count_append j w ws2.flatten
      rw [List.flatten_cons] at hcount
      omega
    set s1 := processWindow ops
      { s with windowsExecuted := s.windowsExecuted + 1 } σ with hs1
    rcases Nat.eq_zero_or_pos (w.count j) with hw0 | hwpos
    · -- j is not in this window: untouched here, settled in the rest.
      have hrest0 : ws2.flatten.count j = 1 := by omega
      have hjnot : j ∉ settlesOf σ := by
        intro hmem
        have := hR.count_eq j
        have := List.count_pos_iff.mpr hmem
        omega
      have hrun1 : s1.isRunning = true := by
        rw [hs1, processWindow_nocancel_run ops σ hσnc]
        exact hrun
      have hlen1 : j < s1.results.length := by
        rw [hs1, processWindow_length]
        exact hlen
      rw [ih (fun σ2 hσ2 => hnc σ2 (by simp [hσ2])) _ hrun1 hrest0 hlen1]
      rw [hs1, processWindow_untouched ops σ j hjnot]
      rfl
    · -- j settles in this window, once; the rest leaves it untouched.
      have hw1 : w.count j = 1 := by omega
      have hrest0 : ws2.flatten.count j = 0 := by omega
      have hjnotrest : ∀ σ2 ∈ σs2, j ∉ settlesOf σ2 := by
        intro σ2 hσ2 hmem
        obtain ⟨w2, hw2, hp⟩ := validScheds_mem_right hrest hσ2
        have hjmem : j ∈ w2 := hp.mem_iff.mp hmem
        have hflatmem : j ∈ ws2.flatten := List.mem_flatten.mpr ⟨w2, hw2, hjmem⟩
        have := List.count_pos_iff.mpr hflatmem
        omega
      rw [schedLoop_untouched ops j ws2 σs2 s1 hjnotrest]
      have hconeσ : (settlesOf σ).count j = 1 := by
        rw [hR.count_eq j]
        exact hw1
      have := processWindow_settle_once ops σ j
        { s with windowsExecuted := s.windowsExecuted + 1 }
        (Or.inr hσnc) hconeσ (by simpa using hlen)
      rw [hs1, this]
      have hflag : ({ s with windowsExecuted := s.windowsExecuted + 1 }
          : RunState).isRunning = true := hrun
      rw [hflag]
      rfl

end SchedLoopLemmas


/-! ### Run-level lemmas -/

lemma initResults_length (jobs : List Job) :
    (initResults jobs).length = jobs.length := by
  simp [initResults]

lemma resultAt_init (jobs : List Job) (i : Nat) (hi : i < jobs.length) :
    resultAt (initState jobs) i =
      ⟨(jobs.getD i ⟨"", .reject ""⟩).prompt, .pending, none, none⟩ := by
  simp only [resultAt, initState, initResults]
  rw [List.getD_eq_getElem _ _ (by simpa using hi), List.getElem_map,
    List.getD_eq_getElem _ _ hi]

lemma ops_getD (jobs : List Job) (i : Nat) (hi : i < jobs.length) :
    (jobs.map Job.op).getD i (.reject "") =
      (jobs.getD i ⟨"", .reject ""⟩).op := by
  rw [List.getD_eq_getElem _ _ (by simpa using hi), List.getElem_map,
    List.getD_eq_getElem _ _ hi]

lemma generatePosesRun_results (jobs : List Job) (C : Nat)
    (scheds : List (List SchedEvent)) (j : Nat) :
    resultAt (generatePosesRun jobs C scheds) j =
      resultAt (schedLoop (jobs.map Job.op)
        (chunks C (List.range jobs.length)) scheds (initState jobs)) j := rfl

lemma generatePosesRun_windows (jobs : List Job) (C : Nat)
    (scheds : List (List SchedEvent)) :
    (generatePosesRun jobs C scheds).windowsExecuted =
      (schedLoop (jobs.map Job.op)
        (chunks C (List.range jobs.length)) scheds
        (initState jobs)).windowsExecuted := rfl

lemma range_chunks_count (C L i : Nat) (hC : 1 ≤ C) (hi : i < L) :
    (chunks C (List.range L)).flatten.count i = 1 := by
  rw [chunks_flatten C hC]
  exact List.count_eq_one_of_mem (List.nodup_range L) (List.mem_range.mpr hi)

/-! ## Claims about the batch runner -/

/-- C7: for every cancellation-free run and every index `i`, the outcome
stored at `results[i]` is the outcome of job `i` — determined by job `i`'s
own prompt and operation alone, for every valid settle order; and each
settle writes only to its own fixed index, leaving every other slot
untouched. -/
theorem c7_outcome_index_correspondence (jobs : List Job) (C : Nat)
    (scheds : List (List SchedEvent)) (hC : 1 ≤ C)
    (hv : ValidScheds (chunks C (List.range jobs.length)) scheds)
    (hnc : NoCancel scheds) (i : Nat) (hi : i < jobs.length) :
    (∀ (ops : List OpResult) (j : Nat) (s : RunState) (i2 : Nat), i2 ≠ j →
      resultAt (settleJob ops j s) i2 = resultAt s i2) ∧
    resultAt (generatePosesRun jobs C scheds) i =
      jobOutcome (jobs.getD i ⟨"", .reject ""⟩) := by
  constructor
  · intro ops j s i2 hne
    simp only [resultAt]
    rw [settleJob_eq]
    exact getD_listModify_ne j i2 _ _ hne s.results
  · rw [generatePosesRun_results]
    have hcount := range_chunks_count C jobs.length i hC hi
    have hlen : i < (initState jobs).results.length := by
      simp only [initState]
      rw [initResults_length]
      exact hi
    rw [schedLoop_result_once (jobs.map Job.op) hv hnc i (initState jobs) rfl
      hcount hlen]
    rw [resultAt_init jobs i hi, ops_getD jobs i hi]
    rfl

/-- Witness for C7: three jobs with concurrency 2 where the first window
settles out of order; the middle job's success still lands at index 1. -/
theorem c7_outcome_index_correspondence_witness :
    resultAt
        (generatePosesRun
          [⟨"p1", .reject "e1"⟩, ⟨"p2", .resolve (some ("image/png", "BBB"))⟩,
            ⟨"p3", .resolve none⟩] 2
          [[.settle 1, .settle 0], [.settle 2]]) 1 =
      ⟨"p2", .done, some "data:image/png;base64,BBB", none⟩ := by
  have h := (c7_outcome_index_correspondence
    [⟨"p1", .reject "e1"⟩, ⟨"p2", .resolve (some ("image/png", "BBB"))⟩,
      ⟨"p3", .resolve none⟩] 2
    [[.settle 1, .settle 0], [.settle 2]] (by omega)
    (by
      show List.Forall₂ _ (chunks 2 (List.range 3)) _
      have hch : chunks 2 (List.range 3) = [[0, 1], [2]] := rfl
      rw [hch]
      refine List.Forall₂.cons ?_ (List.Forall₂.cons ?_ List.Forall₂.nil)
      · show List.Perm [1, 0] [0, 1]
        exact List.Perm.swap 0 1 []
      · show List.Perm [2] [2]
        exact List.Perm.refl _)
    (by
      intro σ hσ
      simp only [List.mem_cons, List.not_mem_nil, or_false] at hσ
      rcases hσ with h1 | h1 <;> subst h1 <;> simp)
    1 (by decide)).2
  simpa using h

/-- C6: absent cancellation, the loop executes exactly `⌈L/C⌉` windows; the
windows partition the job indices into consecutive runs of size at most `C`
(all nonempty, concatenating back to the input order); and the empty job
list yields zero windows and zero outcomes immediately. -/
theorem c6_window_count (jobs : List Job) (C : Nat)
    (scheds : List (List SchedEvent)) (hC : 1 ≤ C)
    (hv : ValidScheds (chunks C (List.range jobs.length)) scheds)
    (hnc : NoCancel scheds) :
    (generatePosesRun jobs C scheds).windowsExecuted =
      (jobs.length + C - 1) / C ∧
    (chunks C (List.range jobs.length)).flatten = List.range jobs.length ∧
    (∀ w ∈ chunks C (List.range jobs.length), w.length ≤ C ∧ w ≠ []) ∧
    (jobs = [] → (generatePosesRun jobs C scheds).windowsExecuted = 0 ∧
      (generatePosesRun jobs C scheds).results = []) := by
  refine ⟨?_, chunks_flatten C hC _, fun w hw => chunks_mem C hC _ w hw, ?_⟩
  · rw [generatePosesRun_windows]
    have h := (schedLoop_complete (jobs.map Job.op) hv hnc (initState jobs) rfl).2
    rw [h]
    show 0 + (chunks C (List.range jobs.length)).length = _
    rw [chunks_length C hC]
    simp
  · intro h
    subst h
    exact ⟨rfl, rfl⟩

/-- Witness for C6: five jobs at concurrency 2 execute exactly three
windows `(2, 2, 1)`, even when jobs settle out of order inside a window. -/
theorem c6_window_count_witness :
    (generatePosesRun
      [⟨"a", .reject "x"⟩, ⟨"b", .reject "x"⟩, ⟨"c", .reject "x"⟩,
        ⟨"d", .reject "x"⟩, ⟨"e", .reject "x"⟩] 2
      [[.settle 0, .settle 1], [.settle 3, .settle 2], [.settle 4]]).windowsExecuted = 3 := by
  have h := (c6_window_count
    [⟨"a", .reject "x"⟩, ⟨"b", .reject "x"⟩, ⟨"c", .reject "x"⟩,
      ⟨"d", .reject "x"⟩, ⟨"e", .reject "x"⟩] 2
    [[.settle 0, .settle 1], [.settle 3, .settle 2], [.settle 4]] (by omega)
    (by
      show List.Forall₂ _ (chunks 2 (List.range 5)) _
      have hch : chunks 2 (List.range 5) = [[0, 1], [2, 3], [4]] := rfl
      rw [hch]
      refine List.Forall₂.cons ?_ (List.Forall₂.cons ?_
        (List.Forall₂.cons ?_ List.Forall₂.nil))
      · show List.Perm [0, 1] [0, 1]
        exact List.Perm.refl _
      · show List.Perm [3, 2] [2, 3]
        exact List.Perm.swap 2 3 []
      · show List.Perm [4] [4]
        exact List.Perm.refl _)
    (by
      intro σ hσ
      simp only [List.mem_cons, List.not_mem_nil, or_false] at hσ
      rcases hσ with h1 | h1 | h1 <;> subst h1 <;> simp)).1
  exact h

/-- C9: absent cancellation, a job whose operation rejects is recorded as a
`Failed` outcome carrying that rejection's message; failures abort neither
sibling jobs nor later windows (all windows still execute); and if every
job's operation rejects, the run terminates with every outcome `Failed`.
(The scheduler model is a total function — the `catch` inside `runJob`
converts every rejection into data, so the loop itself never throws.) -/
theorem c9_failure_isolation (jobs : List Job) (C : Nat)
    (scheds : List (List SchedEvent)) (hC : 1 ≤ C)
    (hv : ValidScheds (chunks C (List.range jobs.length)) scheds)
    (hnc : NoCancel scheds) :
    (∀ i msg, i < jobs.length →
      (jobs.getD i ⟨"", .reject ""⟩).op = .reject msg →
      resultAt (generatePosesRun jobs C scheds) i =
        ⟨(jobs.getD i ⟨"", .reject ""⟩).prompt, .error, none, some msg⟩) ∧
    (generatePosesRun jobs C scheds).windowsExecuted =
      (chunks C (List.range jobs.length)).length ∧
    ((∀ jb ∈ jobs, ∃ msg, jb.op = .reject msg) → ∀ i, i < jobs.length →
      (resultAt (generatePosesRun jobs C scheds) i).status = .error) := by
  have hcore : ∀ i, i < jobs.length →
      resultAt (generatePosesRun jobs C scheds) i =
        jobOutcome (jobs.getD i ⟨"", .reject ""⟩) := by
    intro i hi
    rw [generatePosesRun_results]
    have hcount := range_chunks_count C jobs.length i hC hi
    have hlen : i < (initState jobs).results.length := by
      simp only [initState]
      rw [initResults_length]
      exact hi
    rw [schedLoop_result_once (jobs.map Job.op) hv hnc i (initState jobs) rfl
      hcount hlen]
    rw [resultAt_init jobs i hi, ops_getD jobs i hi]
    rfl
  refine ⟨?_, ?_, ?_⟩
  · intro i msg hi hop
    rw [hcore i hi]
    have hunf : jobOutcome (jobs.getD i ⟨"", .reject ""⟩) =
        settledResult ⟨(jobs.getD i ⟨"", .reject ""⟩).prompt, .pending, none, none⟩
          ((jobs.getD i ⟨"", .reject ""⟩).op) true := rfl
    rw [hunf, hop]
    rfl
  · rw [generatePosesRun_windows,
      (schedLoop_complete (jobs.map Job.op) hv hnc (initState jobs) rfl).2]
    simp [initState]
  · intro hall i hi
    have hmem : jobs.getD i ⟨"", .reject ""⟩ ∈ jobs := by
      rw [List.getD_eq_getElem _ _ hi]
      exact List.getElem_mem hi
    obtain ⟨msg, hop⟩ := hall _ hmem
    rw [hcore i hi]
    have hunf : jobOutcome (jobs.getD i ⟨"", .reject ""⟩) =
        settledResult ⟨(jobs.getD i ⟨"", .reject ""⟩).prompt, .pending, none, none⟩
          ((jobs.getD i ⟨"", .reject ""⟩).op) true := rfl
    rw [hunf, hop]
    rfl

/-- Witness for C9: three always-rejecting jobs at concurrency 2 — both
windows run, every outcome is `Failed`, and each carries its own message. -/
theorem c9_failure_isolation_witness :
    resultAt
        (generatePosesRun
          [⟨"a", .reject "e1"⟩, ⟨"b", .reject "e2"⟩, ⟨"c", .reject "e3"⟩] 2
          [[.settle 1, .settle 0], [.settle 2]]) 0 =
      ⟨"a", .error, none, some "e1"⟩ ∧
    (generatePosesRun
        [⟨"a", .reject "e1"⟩, ⟨"b", .reject "e2"⟩, ⟨"c", .reject "e3"⟩] 2
        [[.settle 1, .settle 0], [.settle 2]]).windowsExecuted = 2 ∧
    (resultAt
        (generatePosesRun
          [⟨"a", .reject "e1"⟩, ⟨"b", .reject "e2"⟩, ⟨"c", .reject "e3"⟩] 2
          [[.settle 1, .settle 0], [.settle 2]]) 2).status = JobStatus.error := by
  have h := c9_failure_isolation
    [⟨"a", .reject "e1"⟩, ⟨"b", .reject "e2"⟩, ⟨"c", .reject "e3"⟩] 2
    [[.settle 1, .settle 0], [.settle 2]] (by omega)
    (by
      show List.Forall₂ _ (chunks 2 (List.range 3)) _
      have hch : chunks 2 (List.range 3) = [[0, 1], [2]] := rfl
      rw [hch]
      refine List.Forall₂.cons ?_ (List.Forall₂.cons ?_ List.Forall₂.nil)
      · show List.Perm [1, 0] [0, 1]
        exact List.Perm.swap 0 1 []
      · show List.Perm [2] [2]
        exact List.Perm.refl _)
    (by
      intro σ hσ
      simp only [List.mem_cons, List.not_mem_nil, or_false] at hσ
      rcases hσ with h1 | h1 <;> subst h1 <;> simp)
  refine ⟨h.1 0 "e1" (by decide) rfl, h.2.1, ?_⟩
  apply h.2.2
  · intro jb hjb
    simp only [List.mem_cons, List.not_mem_nil, or_false] at hjb
    rcases hjb with h1 | h1 | h1 <;> subst h1
    · exact ⟨"e1", rfl⟩
    · exact ⟨"e2", rfl⟩
    · exact ⟨"e3", rfl⟩
  · decide


lemma processWindow_append (ops : List OpResult) (s : RunState)
    (σ1 σ2 : List SchedEvent) :
    processWindow ops s (σ1 ++ σ2) =
      processWindow ops (processWindow ops s σ1) σ2 :=
  List.foldl_append _ _ _ _

/-- The element-wise reading of a valid schedule list. -/
lemma validScheds_getD {ws : List (List Nat)} {σs : List (List SchedEvent)}
    (hv : List.Forall₂ (fun w σ => (settlesOf σ).Perm w) ws σs)
    (k : Nat) (hk : k < ws.length) (hk2 : k < σs.length) :
    (settlesOf (σs.getD k [])).Perm (ws.getD k []) := by
  have h := (List.forall₂_iff_get.mp hv).2 k hk hk2
  rw [List.getD_eq_getElem _ _ hk, List.getD_eq_getElem _ _ hk2]
  simpa using h

/-- C8: if the cancellation flag is cleared during window `m` (the schedule
of window `m` contains a cancel event), then no window beyond `m` is
entered, and every job of windows `≥ m + 1` — exactly the indices
`≥ (m+1)·C` — keeps its initial `Pending` outcome to the end of the run. -/
theorem c8_cancel_before_window (jobs : List Job) (C : Nat)
    (scheds : List (List SchedEvent)) (m : Nat) (hC : 1 ≤ C)
    (hv : ValidScheds (chunks C (List.range jobs.length)) scheds)
    (hm : m < scheds.length)
    (hc : SchedEvent.cancel ∈ scheds.getD m []) :
    (generatePosesRun jobs C scheds).windowsExecuted ≤ m + 1 ∧
    ∀ j, (m + 1) * C ≤ j → j < jobs.length →
      resultAt (generatePosesRun jobs C scheds) j =
        ⟨(jobs.getD j ⟨"", .reject ""⟩).prompt, .pending, none, none⟩ := by
  have hv2 : List.Forall₂ (fun w σ => (settlesOf σ).Perm w)
      (chunks C (List.range jobs.length)) scheds := hv
  have hlen : (chunks C (List.range jobs.length)).length = scheds.length :=
    hv2.length_eq
  have happ := schedLoop_append (jobs.map Job.op)
    ((chunks C (List.range jobs.length)).take (m + 1))
    ((chunks C (List.range jobs.length)).drop (m + 1))
    (scheds.take (m + 1)) (scheds.drop (m + 1)) (initState jobs)
    (by simp [hlen])
  rw [List.take_append_drop, List.take_append_drop] at happ
  have hflag : (schedLoop (jobs.map Job.op)
      ((chunks C (List.range jobs.length)).take (m + 1))
      (scheds.take (m + 1)) (initState jobs)).isRunning = false := by
    apply schedLoop_flag_false_of_cancel (jobs.map Job.op) _ _ _ m
    · simp [hlen]
    · simp
      omega
    · have hgd : (scheds.take (m + 1)).getD m [] = scheds.getD m [] := by
        rw [List.getD_eq_getElem _ _ (by simp; omega),
          List.getD_eq_getElem _ _ hm]
        exact List.getElem_take _
      rw [hgd]
      exact hc
  have hfinal : schedLoop (jobs.map Job.op)
      (chunks C (List.range jobs.length)) scheds (initState jobs) =
      schedLoop (jobs.map Job.op)
        ((chunks C (List.range jobs.length)).take (m + 1))
        (scheds.take (m + 1)) (initState jobs) := by
    rw [happ]
    exact schedLoop_not_running _ _ _ _ hflag
  constructor
  · rw [generatePosesRun_windows, hfinal]
    have hle := schedLoop_windows_le (jobs.map Job.op)
      ((chunks C (List.range jobs.length)).take (m + 1))
      (scheds.take (m + 1)) (initState jobs)
    have hzero : (initState jobs).windowsExecuted = 0 := rfl
    rw [hzero] at hle
    have htl : ((chunks C (List.range jobs.length)).take (m + 1)).length ≤
        m + 1 := by
      simp
    omega
  · intro j hjge hjL
    rw [generatePosesRun_results, hfinal]
    have huntouched :
        resultAt (schedLoop (jobs.map Job.op)
          ((chunks C (List.range jobs.length)).take (m + 1))
          (scheds.take (m + 1)) (initState jobs)) j =
        resultAt (initState jobs) j := by
      apply schedLoop_untouched
      intro σ hσ hmem
      obtain ⟨w, hw, hperm⟩ :=
        validScheds_mem_right (List.forall₂_take (m + 1) hv2) hσ
      have hjw : j ∈ w := hperm.mem_iff.mp hmem
      have hjfl : j ∈ ((chunks C (List.range jobs.length)).take (m + 1)).flatten :=
        List.mem_flatten.mpr ⟨w, hw, hjw⟩
      rw [chunks_take_flatten C hC (List.range jobs.length) (m + 1),
        List.take_range] at hjfl
      have := List.mem_range.mp hjfl
      omega
    rw [huntouched, resultAt_init jobs j hjL]

/-- Witness for C8: two jobs at concurrency 1, flag cleared during window 0
(`m = 0`); window 1 never starts and job 1 stays `Pending`. -/
theorem c8_cancel_before_window_witness :
    (generatePosesRun [⟨"q1", .reject "e"⟩, ⟨"q2", .reject "e"⟩] 1
      [[.cancel, .settle 0], [.settle 1]]).windowsExecuted ≤ 1 ∧
    resultAt (generatePosesRun [⟨"q1", .reject "e"⟩, ⟨"q2", .reject "e"⟩] 1
      [[.cancel, .settle 0], [.settle 1]]) 1 =
      ⟨"q2", .pending, none, none⟩ := by
  have h := c8_cancel_before_window
    [⟨"q1", .reject "e"⟩, ⟨"q2", .reject "e"⟩] 1
    [[.cancel, .settle 0], [.settle 1]] 0 (by omega)
    (by
      show List.Forall₂ _ (chunks 1 (List.range 2)) _
      have hch : chunks 1 (List.range 2) = [[0], [1]] := rfl
      rw [hch]
      refine List.Forall₂.cons ?_ (List.Forall₂.cons ?_ List.Forall₂.nil)
      · show List.Perm [0] [0]
        exact List.Perm.refl _
      · show List.Perm [1] [1]
        exact List.Perm.refl _)
    (by decide) (by decide)
  exact ⟨h.1, by simpa using h.2 1 (by omega) (by decide)⟩


/-- C3 fails on the code: a job already started in the current window whose
network call *succeeds* after the flag is cleared does **not** write its
outcome.  The post-await `if (!this.isRunning) return;`
(src/components/PoseTreadmill.ts line 232, src/unnamed/part_001 line 210)
returns before the `done` outcome is stored, so the slot stays `Pending`
even though the operation ran to completion successfully.  Here: one job,
concurrency 1, the flag is cleared while the job is in flight, the call
then resolves with an image — the recorded outcome remains `Pending`
although the window was entered (`windowsExecuted = 1`). -/
theorem c3_counterexample :
    (resultAt (generatePosesRun
        [⟨"p", .resolve (some ("image/png", "AAA"))⟩] 1
        [[.cancel, .settle 0]]) 0).status = JobStatus.pending ∧
    (generatePosesRun [⟨"p", .resolve (some ("image/png", "AAA"))⟩] 1
        [[.cancel, .settle 0]]).windowsExecuted = 1 := by
  decide

/-- Evaluation of a window whose schedule cancels before job `j` settles:
`j`'s outcome is `settledResult` of its operation under a cleared flag. -/
lemma window_cancel_eval (ops : List OpResult) (s : RunState)
    (σa σb : List SchedEvent) (j : Nat)
    (hja : j ∉ settlesOf σa) (hcb1 : (settlesOf σb).count j = 1)
    (hlen : j < s.results.length) :
    resultAt (processWindow ops s (σa ++ SchedEvent.cancel :: σb)) j =
      settledResult (resultAt s j) (ops.getD j (.reject "")) false := by
  rw [processWindow_append, processWindow_cons]
  have hlen2 : j < (stepEvent ops (processWindow ops s σa)
      SchedEvent.cancel).results.length := by
    rw [stepEvent_length, processWindow_length]
    exact hlen
  rw [processWindow_settle_once ops σb j _ (Or.inl rfl) hcb1 hlen2]
  have hflagf : (stepEvent ops (processWindow ops s σa)
      SchedEvent.cancel).isRunning = false := rfl
  rw [hflagf]
  have hres : resultAt (stepEvent ops (processWindow ops s σa)
      SchedEvent.cancel) j = resultAt s j := by
    have h1 : resultAt (stepEvent ops (processWindow ops s σa)
        SchedEvent.cancel) j = resultAt (processWindow ops s σa) j := rfl
    rw [h1, processWindow_untouched ops σa j hja]
  rw [hres]

/-- C3 amended: after the cancellation flag is cleared mid-window, jobs
already started in the current window run to completion, and a job whose
operation *fails* still writes its `Failed` outcome into the shared array;
but a job whose operation *succeeds* after the clearing skips recording and
its slot remains `Pending`; only subsequent windows are skipped.
(`σa` and `σb` are the parts of window `m`'s schedule before and after the
cancel event; `j` is a job of that window settling after the cancel.) -/
theorem c3_inflight_jobs_amended (jobs : List Job) (C : Nat)
    (scheds : List (List SchedEvent)) (m : Nat)
    (σa σb : List SchedEvent) (j : Nat) (hC : 1 ≤ C)
    (hv : ValidScheds (chunks C (List.range jobs.length)) scheds)
    (hm : m < scheds.length)
    (hσm : scheds.getD m [] = σa ++ SchedEvent.cancel :: σb)
    (hpre : ∀ σ ∈ scheds.take m, SchedEvent.cancel ∉ σ)
    (hjb : j ∈ settlesOf σb) :
    (∀ msg, (jobs.getD j ⟨"", .reject ""⟩).op = .reject msg →
      resultAt (generatePosesRun jobs C scheds) j =
        ⟨(jobs.getD j ⟨"", .reject ""⟩).prompt, .error, none, some msg⟩) ∧
    (∀ img, (jobs.getD j ⟨"", .reject ""⟩).op = .resolve img →
      resultAt (generatePosesRun jobs C scheds) j =
        ⟨(jobs.getD j ⟨"", .reject ""⟩).prompt, .pending, none, none⟩) ∧
    (generatePosesRun jobs C scheds).windowsExecuted = m + 1 := by
  have hv2 : List.Forall₂ (fun w σ => (settlesOf σ).Perm w)
      (chunks C (List.range jobs.length)) scheds := hv
  have hlen : (chunks C (List.range jobs.length)).length = scheds.length :=
    hv2.length_eq
  have hmw : m < (chunks C (List.range jobs.length)).length := by omega
  have hperm_m := validScheds_getD hv2 m hmw hm
  have hsettles_m : settlesOf (scheds.getD m []) =
      settlesOf σa ++ settlesOf σb := by
    rw [hσm]
    simp [settlesOf, List.filterMap_append, List.filterMap_cons]
  have hjm : j ∈ settlesOf (scheds.getD m []) := by
    rw [hsettles_m]
    exact List.mem_append.mpr (Or.inr hjb)
  have hjwm : j ∈ (chunks C (List.range jobs.length)).getD m [] :=
    hperm_m.mem_iff.mp hjm
  have hwm_mem : (chunks C (List.range jobs.length)).getD m [] ∈
      chunks C (List.range jobs.length) := by
    rw [List.getD_eq_getElem _ _ hmw]
    exact List.getElem_mem hmw
  have hjL : j < jobs.length := by
    have hjr : j ∈ List.range jobs.length := by
      rw [← chunks_flatten C hC (List.range jobs.length)]
      exact List.mem_flatten.mpr ⟨_, hwm_mem, hjwm⟩
    exact List.mem_range.mp hjr
  have hflnd : ((chunks C (List.range jobs.length)).flatten).Nodup := by
    rw [chunks_flatten C hC]
    exact List.nodup_range jobs.length
  have hnd : ((chunks C (List.range jobs.length)).getD m []).Nodup :=
    (List.nodup_flatten.mp hflnd).1 _ hwm_mem
  have hcount1 : (settlesOf (scheds.getD m [])).count j = 1 := by
    rw [hperm_m.count_eq]
    exact List.count_eq_one_of_mem hnd hjwm
  have hbpos : 0 < (settlesOf σb).count j := List.count_pos_iff.mpr hjb
  have hsplitc : (settlesOf σa).count j + (settlesOf σb).count j = 1 := by
    rw [hsettles_m, List.count_append] at hcount1
    omega
  have hja : j ∉ settlesOf σa := by
    intro hmem
    have := List.count_pos_iff.mpr hmem
    omega
  have hcb1 : (settlesOf σb).count j = 1 := by omega
  have hvpre := List.forall₂_take m hv2
  have hcomp := schedLoop_complete (jobs.map Job.op) hvpre hpre
    (initState jobs) rfl
  set s1 : RunState := schedLoop (jobs.map Job.op)
    ((chunks C (List.range jobs.length)).take m) (scheds.take m)
    (initState jobs) with hs1
  have hs1run : s1.isRunning = true := hcomp.1
  have hs1we : s1.windowsExecuted = m := by
    rw [hcomp.2]
    have hz : (initState jobs).windowsExecuted = 0 := rfl
    rw [hz]
    simp
    omega
  have hjpre : ∀ σ ∈ scheds.take m, j ∉ settlesOf σ := by
    intro σ hσ hmem
    obtain ⟨k, hk, hkeq⟩ := List.mem_iff_getElem.mp hσ
    have hkm : k < m := by
      have := List.length_take m scheds
      omega
    have hks : k < scheds.length := by omega
    have hkw : k < (chunks C (List.range jobs.length)).length := by omega
    have hσk : σ = scheds.getD k [] := by
      rw [List.getD_eq_getElem _ _ hks, ← hkeq]
      exact List.getElem_take _
    have hpermk := validScheds_getD hv2 k hkw hks
    have hjwk : j ∈ (chunks C (List.range jobs.length)).getD k [] := by
      apply hpermk.mem_iff.mp
      rw [← hσk]
      exact hmem
    have hpair := (List.nodup_flatten.mp hflnd).2
    have hdisj := List.pairwise_iff_getElem.mp hpair k m hkw hmw hkm
    rw [List.getD_eq_getElem _ _ hkw] at hjwk
    rw [List.getD_eq_getElem _ _ hmw] at hjwm
    exact hdisj hjwk hjwm
  have hs1res : resultAt s1 j = resultAt (initState jobs) j := by
    rw [hs1]
    exact schedLoop_untouched _ j _ _ _ hjpre
  have hs1len : s1.results.length = jobs.length := by
    rw [hs1, schedLoop_length]
    show (initResults jobs).length = jobs.length
    exact initResults_length jobs
  have happ := schedLoop_append (jobs.map Job.op)
    ((chunks C (List.range jobs.length)).take m)
    ((chunks C (List.range jobs.length)).drop m)
    (scheds.take m) (scheds.drop m) (initState jobs) (by simp [hlen])
  rw [List.take_append_drop, List.take_append_drop] at happ
  have hwdrop : (chunks C (List.range jobs.length)).drop m =
      (chunks C (List.range jobs.length)).getD m [] ::
        (chunks C (List.range jobs.length)).drop (m + 1) := by
    rw [List.getD_eq_getElem _ _ hmw]
    exact List.drop_eq_getElem_cons hmw
  have hsdrop : scheds.drop m =
      scheds.getD m [] :: scheds.drop (m + 1) := by
    rw [List.getD_eq_getElem _ _ hm]
    exact List.drop_eq_getElem_cons hm
  rw [hwdrop, hsdrop, schedLoop_cons, if_pos (by exact hs1run), hσm] at happ
  have hσm_cancel : SchedEvent.cancel ∈ σa ++ SchedEvent.cancel :: σb :=
    List.mem_append.mpr (Or.inr (List.mem_cons_self _ _))
  have hs2flag : (processWindow (jobs.map Job.op)
      { s1 with windowsExecuted := s1.windowsExecuted + 1 }
      (σa ++ SchedEvent.cancel :: σb)).isRunning = false :=
    processWindow_cancel_false _ _ _ hσm_cancel
  rw [schedLoop_not_running _ _ _ _ hs2flag] at happ
  have hs2len : j < ({ s1 with
      windowsExecuted := s1.windowsExecuted + 1 } : RunState).results.length := by
    show j < s1.results.length
    rw [hs1len]
    exact hjL
  have hwce := window_cancel_eval (jobs.map Job.op)
    { s1 with windowsExecuted := s1.windowsExecuted + 1 } σa σb j hja hcb1 hs2len
  have hupd : resultAt ({ s1 with
      windowsExecuted := s1.windowsExecuted + 1 } : RunState) j =
      resultAt (initState jobs) j := by
    show resultAt s1 j = _
    exact hs1res
  rw [hupd, ops_getD jobs j hjL] at hwce
  refine ⟨?_, ?_, ?_⟩
  · intro msg hop
    rw [generatePosesRun_results, happ, hwce, resultAt_init jobs j hjL, hop]
    rfl
  · intro img hop
    rw [generatePosesRun_results, happ, hwce, resultAt_init jobs j hjL, hop]
    rfl
  · rw [generatePosesRun_windows, happ, processWindow_windows]
    show s1.windowsExecuted + 1 = m + 1
    rw [hs1we]

/-- Witness for C3 (amended): three jobs at concurrency 2; the flag is
cleared before either job of window 0 settles.  The rejecting job 0 still
records `Failed`, the resolving job 1 stays `Pending`, and window 1 is
skipped. -/
theorem c3_inflight_jobs_amended_witness :
    resultAt (generatePosesRun
        [⟨"p1", .reject "boom"⟩, ⟨"p2", .resolve (some ("image/png", "X"))⟩,
          ⟨"p3", .resolve none⟩] 2
        [[.cancel, .settle 0, .settle 1], [.settle 2]]) 0 =
      ⟨"p1", .error, none, some "boom"⟩ ∧
    resultAt (generatePosesRun
        [⟨"p1", .reject "boom"⟩, ⟨"p2", .resolve (some ("image/png", "X"))⟩,
          ⟨"p3", .resolve none⟩] 2
        [[.cancel, .settle 0, .settle 1], [.settle 2]]) 1 =
      ⟨"p2", .pending, none, none⟩ ∧
    (generatePosesRun
        [⟨"p1", .reject "boom"⟩, ⟨"p2", .resolve (some ("image/png", "X"))⟩,
          ⟨"p3", .resolve none⟩] 2
        [[.cancel, .settle 0, .settle 1], [.settle 2]]).windowsExecuted = 1 := by
  have hv : ValidScheds (chunks 2 (List.range 3))
      [[.cancel, .settle 0, .settle 1], [.settle 2]] := by
    show List.Forall₂ _ (chunks 2 (List.range 3)) _
    have hch : chunks 2 (List.range 3) = [[0, 1], [2]] := rfl
    rw [hch]
    refine List.Forall₂.cons ?_ (List.Forall₂.cons ?_ List.Forall₂.nil)
    · show List.Perm [0, 1] [0, 1]
      exact List.Perm.refl _
    · show List.Perm [2] [2]
      exact List.Perm.refl _
  have h0 := c3_inflight_jobs_amended
    [⟨"p1", .reject "boom"⟩, ⟨"p2", .resolve (some ("image/png", "X"))⟩,
      ⟨"p3", .resolve none⟩] 2
    [[.cancel, .settle 0, .settle 1], [.settle 2]] 0 []
    [.settle 0, .settle 1] 0 (by omega) hv (by decide) rfl
    (by intro σ hσ; simp at hσ) (by decide)
  have h1 := c3_inflight_jobs_amended
    [⟨"p1", .reject "boom"⟩, ⟨"p2", .resolve (some ("image/png", "X"))⟩,
      ⟨"p3", .resolve none⟩] 2
    [[.cancel, .settle 0, .settle 1], [.settle 2]] 0 []
    [.settle 0, .settle 1] 1 (by omega) hv (by decide) rfl
    (by intro σ hσ; simp at hσ) (by decide)
  exact ⟨h0.1 "boom" rfl, h1.2.1 (some ("image/png", "X")) rfl, h0.2.2⟩

end PoseAff
